import Mathlib

/-!
Verification model of toybox xargs (toys/posix/xargs.c).

A shallow embedding of the argument-batching and command-execution engine of
`xargs.c`.  C strings are modelled as `List Nat` of their bytes (the
terminating NUL is implicit: the empty list is the empty C string).  The
`long` quantities `TT.bytes` and `TT.s` are modelled as `Int` (the prefix
tally in `xargs_main` starts at `-1`).  `sizeof(void *)` / `sizeof(char *)`
is fixed to 8 (LP64), see `ptrSize`.

`handle_entries` (xargs.c lines 55-92) is a single C function used in two
modes: a counting pass (`entry == NULL`) and a filling pass (`entry != NULL`).
The two delimiter disciplines (whitespace vs `-0`) are the two top-level
branches of that function.  Here each of the four combinations is transcribed
as its own Lean function (`wsCount`, `wsFill`, `nulCount`, `nulFill`) from the
same C lines; the claims relate them.

Library helpers of the repository that are not under `src/` are modelled from
the spec where they matter; each such definition carries a comment saying so.
-/

namespace Xargs

/-- LP64 pointer size: `sizeof(void *)` = `sizeof(char *)` = 8. -/
def ptrSize : Nat := 8

/-- C `isspace` in the POSIX locale: space (32) and `\t \n \v \f \r` (9..13). -/
def isspace (c : Nat) : Bool := decide (c = 32 ∨ (9 ≤ c ∧ c ≤ 13))

/-- Negation of `isspace`, the token-character predicate. -/
def notSpace (c : Nat) : Bool := ! isspace c

/-- The option structure consumed by the engine (flag parsing is out of scope):
`-s` (`flagS`, with `s` = `TT.s` the byte limit), `-0` (`flag0`), `-r`
(`flagR`), `-n` (`n`, 0 = unlimited), `-E` (`E`, `none` = not given), and the
fixed command words `optargs` (`toys.optargs`). -/
structure Cfg where
  flagS : Bool
  flag0 : Bool
  flagR : Bool
  s : Int
  n : Nat
  E : Option (List Nat)
  optargs : List (List Nat)
deriving DecidableEq

/-- The four-way return convention of `handle_entries` (xargs.c lines 50-53):
`NULL` = need more data; `(char *)1` = hit data limits having consumed all
data; `(char *)2` = hit `-E STR`; any other pointer = hit data limits, start
of the data left over. -/
inductive HRet where
  | needMore
  | fullConsumed
  | stopHit
  | leftover (rest : List Nat)
deriving DecidableEq

/-- Result of one counting-pass call of `handle_entries`: the updated
`TT.bytes`, `TT.entries` and the returned value. -/
structure CountRes where
  bytes : Int
  entries : Nat
  ret : HRet
deriving DecidableEq

/-- Result of one filling-pass call of `handle_entries`: additionally the
accumulated `entry[]` array contents. -/
structure FillRes where
  bytes : Int
  entries : Nat
  toks : List (List Nat)
  ret : HRet
deriving DecidableEq

/-- The per-entry bookkeeping overhead added in whitespace mode
(xargs.c line 68): `if (!FLAG(s)) TT.bytes += sizeof(void *)+1;`. -/
def wsOvh (cfg : Cfg) : Int := if cfg.flagS then 0 else (ptrSize : Int) + 1

/-- The inner byte-counting loop of whitespace mode (xargs.c lines 69-73):
`for (;;) { if (++TT.bytes >= TT.s) return save; if (!*s || isspace(*s))
break; s++; }`.  Returns the updated `TT.bytes` and either `none` (overflow:
the C code returns `save`) or `some` of the remaining string (positioned at
the delimiter or at the end). -/
def byteLoop (cfg : Cfg) (b : Int) (s : List Nat) : Int × Option (List Nat) :=
  if b + 1 ≥ cfg.s then (b + 1, none)
  else
    match s with
    | [] => (b + 1, some [])
    | c :: cs => if isspace c then (b + 1, some (c :: cs)) else byteLoop cfg (b + 1) cs

/-- Whitespace-mode `handle_entries`, counting pass (`entry == NULL`),
transcribing xargs.c lines 57-79: chop a whitespace-delimited string into
args, stopping at `-n`/`-s` limits or `-E`.  The outer `for` loop with
`TT.entries++` is the recursion (structural on a fuel bound on the number of
iterations, see `wsCount`); `dropWhile isspace` is `while (isspace(*s)) s++;`;
the `-n` check returns `*s ? s : 1`; `byteLoop` is the size loop; the `-E`
test `strstart(&ss, TT.E) && ss == s` holds exactly when the current token
equals `TT.E` (`strstart` is repository library code not under src/:
modelled from the spec, "a configured stop string equals the current token
exactly"). -/
def wsCountGo (cfg : Cfg) : Nat → Int → Nat → List Nat → CountRes
  | 0, b, e, _ => ⟨b, e, .needMore⟩
  | fuel + 1, b, e, s =>
    match s with
    | [] => ⟨b, e, .needMore⟩
    | c0 :: cs0 =>
      if cfg.n ≠ 0 ∧ cfg.n ≤ e then
        ⟨b, e, if (c0 :: cs0).dropWhile isspace = [] then .fullConsumed
               else .leftover ((c0 :: cs0).dropWhile isspace)⟩
      else
        match (c0 :: cs0).dropWhile isspace with
        | [] => ⟨b, e, .needMore⟩
        | c1 :: cs1 =>
          match byteLoop cfg (b + wsOvh cfg) (c1 :: cs1) with
          | (b', none) => ⟨b', e, .leftover (c1 :: cs1)⟩
          | (b', some sAfter) =>
            if cfg.E = some ((c1 :: cs1).takeWhile notSpace) then ⟨b', e, .stopHit⟩
            else wsCountGo cfg fuel b' (e + 1) sAfter

/-- `wsCountGo` with enough fuel: each iteration strictly shortens the
string, so `s.length + 1` iterations always reach the real exit points. -/
def wsCount (cfg : Cfg) (b : Int) (e : Nat) (s : List Nat) : CountRes :=
  wsCountGo cfg (s.length + 1) b e s

/-- Whitespace-mode `handle_entries`, filling pass (`entry != NULL`), same C
lines as `wsCountGo` plus lines 75-78: `entry[TT.entries] = save;
if (*s) *s++ = 0;` — the token is stored and the string position moves past
the delimiter that is overwritten with NUL. -/
def wsFillGo (cfg : Cfg) : Nat → Int → Nat → List Nat → List (List Nat) → FillRes
  | 0, b, e, _, acc => ⟨b, e, acc, .needMore⟩
  | fuel + 1, b, e, s, acc =>
    match s with
    | [] => ⟨b, e, acc, .needMore⟩
    | c0 :: cs0 =>
      if cfg.n ≠ 0 ∧ cfg.n ≤ e then
        ⟨b, e, acc, if (c0 :: cs0).dropWhile isspace = [] then .fullConsumed
                    else .leftover ((c0 :: cs0).dropWhile isspace)⟩
      else
        match (c0 :: cs0).dropWhile isspace with
        | [] => ⟨b, e, acc, .needMore⟩
        | c1 :: cs1 =>
          match byteLoop cfg (b + wsOvh cfg) (c1 :: cs1) with
          | (b', none) => ⟨b', e, acc, .leftover (c1 :: cs1)⟩
          | (b', some sAfter) =>
            if cfg.E = some ((c1 :: cs1).takeWhile notSpace) then ⟨b', e, acc, .stopHit⟩
            else wsFillGo cfg fuel b' (e + 1) sAfter.tail (acc ++ [(c1 :: cs1).takeWhile notSpace])

/-- `wsFillGo` with enough fuel. -/
def wsFill (cfg : Cfg) (b : Int) (e : Nat) (s : List Nat) (acc : List (List Nat)) : FillRes :=
  wsFillGo cfg (s.length + 1) b e s acc

/-- `-0`-mode `handle_entries`, counting pass, transcribing xargs.c lines
82-89: `long bytes = TT.bytes+sizeof(char *)+strlen(data)+1; if (bytes >=
TT.s || (TT.n && TT.entries >= TT.n)) return data; TT.bytes = bytes;
TT.entries++;`. -/
def nulCount (cfg : Cfg) (b : Int) (e : Nat) (data : List Nat) : CountRes :=
  let bytes := b + (ptrSize : Int) + data.length + 1
  if bytes ≥ cfg.s ∨ (cfg.n ≠ 0 ∧ cfg.n ≤ e) then ⟨b, e, .leftover data⟩
  else ⟨bytes, e + 1, .needMore⟩

/-- `-0`-mode `handle_entries`, filling pass: same as `nulCount` plus
`if (entry) entry[TT.entries] = data;`. -/
def nulFill (cfg : Cfg) (b : Int) (e : Nat) (data : List Nat) (acc : List (List Nat)) : FillRes :=
  let bytes := b + (ptrSize : Int) + data.length + 1
  if bytes ≥ cfg.s ∨ (cfg.n ≠ 0 ∧ cfg.n ≤ e) then ⟨b, e, acc, .leftover data⟩
  else ⟨bytes, e + 1, acc ++ [data], .needMore⟩

/-- `handle_entries(data, 0)`: the mode dispatch `if (TT.delim)` — `TT.delim`
is `'\n'*!FLAG(0)` (xargs.c line 108), nonzero exactly when `-0` is absent. -/
def handleCount (cfg : Cfg) (b : Int) (e : Nat) (data : List Nat) : CountRes :=
  if cfg.flag0 then nulCount cfg b e data else wsCount cfg b e data

/-- `handle_entries(data, entry)` with a non-NULL entry array. -/
def handleFill (cfg : Cfg) (b : Int) (e : Nat) (data : List Nat) (acc : List (List Nat)) : FillRes :=
  if cfg.flag0 then nulFill cfg b e data acc else wsFill cfg b e data acc

/-- Result of the inner read loop of `xargs_main` (xargs.c lines 128-149):
the lines buffered into `dlist` this batch, the final `TT.bytes` and
`TT.entries`, the leftover `data` (already `xstrdup`ed: `none` when the
returned value was `NULL`/`1`/`2`), the unread remainder of stdin, and
whether `done` was incremented (end of input, or `-E` hit). -/
structure ReadRes where
  dlist : List (List Nat)
  bytes : Int
  entries : Nat
  pending : Option (List Nat)
  stdin : List (List Nat)
  done : Bool
deriving DecidableEq

/-- The read loop from the point where `data == NULL`: read a line with
`getdelim` (end of stream: `data = 0; done++; break;`), `dlist_add` it, run
the counting pass, and continue while it returns `NULL`
(`dlist_add` is repository library code not under src/: modelled from the
spec, append to the ordered buffer of input lines).  `stdin` is the sequence
of strings `getdelim` delivers. -/
def readLines (cfg : Cfg) (b : Int) (e : Nat) : List (List Nat) → ReadRes
  | [] => ⟨[], b, e, none, [], true⟩
  | d :: rest =>
    match handleCount cfg b e d with
    | ⟨b', e', .needMore⟩ =>
      let r := readLines cfg b' e' rest
      ⟨d :: r.dlist, r.bytes, r.entries, r.pending, r.stdin, r.done⟩
    | ⟨b', e', .fullConsumed⟩ => ⟨[d], b', e', none, rest, false⟩
    | ⟨b', e', .stopHit⟩ => ⟨[d], b', e', none, rest, true⟩
    | ⟨b', e', .leftover l⟩ => ⟨[d], b', e', some l, rest, false⟩

/-- The full inner read loop: on entry `data` may still hold the leftover of
the previous batch (`pending`), which is buffered and consumed first. -/
def readLoop (cfg : Cfg) (b : Int) (e : Nat) (pending : Option (List Nat))
    (stdin : List (List Nat)) : ReadRes :=
  match pending with
  | none => readLines cfg b e stdin
  | some d =>
    match handleCount cfg b e d with
    | ⟨b', e', .needMore⟩ =>
      let r := readLines cfg b' e' stdin
      ⟨d :: r.dlist, r.bytes, r.entries, r.pending, r.stdin, r.done⟩
    | ⟨b', e', .fullConsumed⟩ => ⟨[d], b', e', none, stdin, false⟩
    | ⟨b', e', .stopHit⟩ => ⟨[d], b', e', none, stdin, true⟩
    | ⟨b', e', .leftover l⟩ => ⟨[d], b', e', some l, stdin, false⟩

/-- The filling pass over the buffered lines (xargs.c lines 160-164):
`TT.entries = 0; TT.bytes = bytes; for (dtemp = dlist; dtemp; dtemp =
dtemp->next) handle_entries(dtemp->data, out+entries);` — every buffered
line is replayed, return values ignored.  Returns the final `TT.bytes`,
`TT.entries` and the tokens stored into `out` after the command words. -/
def fillPass (cfg : Cfg) (b : Int) (e : Nat) (acc : List (List Nat)) :
    List (List Nat) → Int × Nat × List (List Nat)
  | [] => (b, e, acc)
  | d :: rest =>
    let f := handleFill cfg b e d acc
    fillPass cfg f.bytes f.entries f.toks rest

/-- A child's `waitpid` status: `WIFEXITED` with `WEXITSTATUS` in 0..255, or
termination by signal. -/
inductive Wstatus where
  | exited (code : Nat)
  | signaled
deriving DecidableEq

/-- The exit-status special cases (xargs.c lines 184-197).  Returns the new
`toys.exitval`, whether `xargs_main` returns immediately (stopping further
invocations), and whether an error message is printed (`error_msg` for the
255 sentinel). -/
def classifyStatus (st : Wstatus) (exitval : Nat) : Nat × Bool × Bool :=
  match st with
  | .exited c =>
    if c = 126 ∨ c = 127 then (c, true, false)
    else if 1 ≤ c ∧ c ≤ 125 then (123, false, false)
    else if c = 255 then (124, true, true)
    else (exitval, false, false)
  | .signaled => (127, false, false)

/-- Whether a child status makes the run stop (exit 126, 127 or 255). -/
def stopsRun (st : Wstatus) : Bool := (classifyStatus st 0).2.1

/-- The environment supplies one status per invocation; when the provided
list runs out further children are taken to exit 0. -/
def nextStatus : List Wstatus → Wstatus × List Wstatus
  | [] => (.exited 0, [])
  | c :: r => (c, r)

/-- Final observable outcome of a run: the full argument vectors exec'd (in
order), the token part of each (the batches), the final `toys.exitval`, and
the `error_exit` message if the run died fatally
(`error_exit` is repository library code not under src/: modelled from the
spec, "fatal: abort immediately, nonzero exit" — exit code 1 here). -/
structure RunResult where
  invocations : List (List (List Nat))
  batches : List (List (List Nat))
  exitCode : Nat
  fatal : Option String
deriving DecidableEq

/-- State of the outer exec-chunk loop of `xargs_main` (xargs.c lines
122-204): leftover `data`, remaining stdin, remaining child statuses,
whether any child has been spawned (`pid`), the `done` flag, the current
`toys.exitval`, and the record of invocations so far. -/
structure LoopSt where
  pending : Option (List Nat)
  stdin : List (List Nat)
  childs : List Wstatus
  pid : Bool
  done : Bool
  exitval : Nat
  invocations : List (List (List Nat))
  batches : List (List (List Nat))
deriving DecidableEq

/-- The outer `while (data || !done)` loop of `xargs_main`
(xargs.c lines 122-204), fuel-indexed (one unit per iteration; `none` = out
of fuel).  Each iteration: run the read loop; on `!TT.entries`, either
`error_exit("argument too long")` (leftover data), return (a child already
ran), or `continue` under `-r`; otherwise build `out` = command words ++
filled batch, spawn the child, and dispatch on its status via
`classifyStatus`.  The `-p`/`-t`/`-o` flags only affect tracing and the
child's stdin and are outside the model. -/
def runLoop (cfg : Cfg) (pfx : List (List Nat)) (pbytes : Int) :
    Nat → LoopSt → Option RunResult
  | 0, _ => none
  | fuel + 1, st =>
    if st.pending = none ∧ st.done = true then
      some ⟨st.invocations, st.batches, st.exitval, none⟩
    else
      let r := readLoop cfg pbytes 0 st.pending st.stdin
      if r.entries = 0 ∧ r.pending ≠ none then
        some ⟨st.invocations, st.batches, 1, some "argument too long"⟩
      else if r.entries = 0 ∧ r.pending = none ∧ st.pid = true then
        some ⟨st.invocations, st.batches, st.exitval, none⟩
      else if r.entries = 0 ∧ r.pending = none ∧ st.pid = false ∧ cfg.flagR = true then
        runLoop cfg pfx pbytes fuel
          ⟨none, r.stdin, st.childs, st.pid, st.done || r.done, st.exitval,
           st.invocations, st.batches⟩
      else
        let toks := (fillPass cfg pbytes 0 [] r.dlist).2.2
        let out := pfx ++ toks
        let sc := nextStatus st.childs
        let cl := classifyStatus sc.1 st.exitval
        if cl.2.1 then
          some ⟨st.invocations ++ [out], st.batches ++ [toks], cl.1, none⟩
        else
          runLoop cfg pfx pbytes fuel
            ⟨r.pending, r.stdin, sc.2, true, st.done || r.done, cl.1,
             st.invocations ++ [out], st.batches ++ [toks]⟩

/-- The startup size-limit computation (xargs.c line 106):
`if (!FLAG(s)) TT.s = sysconf(_SC_ARG_MAX) - environ_bytes() - 4096;`
(`environ_bytes` is repository library code not under src/: modelled from
the spec as the current environment's byte footprint, an opaque input). -/
def computeLimit (flagS : Bool) (sFlag argMax envBytes : Int) : Int :=
  if flagS then sFlag else argMax - envBytes - 4096

/-- The bytes of the word "echo". -/
def echoWord : List Nat := [101, 99, 104, 111]

/-- The default command (xargs.c lines 111-115): with no optargs, the
command becomes the single word `echo`. -/
def defaultCmd (optargs : List (List Nat)) : List (List Nat) :=
  if optargs = [] then [echoWord] else optargs

/-- The command-word byte tally (xargs.c lines 118-119):
`for (entries = 0, bytes = -1; entries < toys.optc; entries++) bytes +=
strlen(toys.optargs[entries])+1+sizeof(char *)*!FLAG(s);`. -/
def prefixBytes (cfg : Cfg) (pfx : List (List Nat)) : Int :=
  pfx.foldl (fun b a => b + ((a.length : Int) + 1 + (if cfg.flagS then 0 else (ptrSize : Int)))) (-1)

/-- `xargs_main` (xargs.c lines 94-206): compute the size limit, default the
command to `echo`, tally the command words (fatal `command too long` when
they already reach the limit), then run the exec-chunk loop.  `stdin` is the
sequence of strings delivered by `getdelim` (lines in whitespace mode, the
NUL-separated chunks under `-0`); `childs` the children's wait statuses. -/
def xargs_main (cfg : Cfg) (argMax envBytes : Int) (stdin : List (List Nat))
    (childs : List Wstatus) (fuel : Nat) : Option RunResult :=
  let cfg' : Cfg := { cfg with s := computeLimit cfg.flagS cfg.s argMax envBytes }
  let pfx := defaultCmd cfg.optargs
  let pb := prefixBytes cfg' pfx
  if pb ≥ cfg'.s then some ⟨[], [], 1, some "command too long"⟩
  else runLoop cfg' pfx pb fuel ⟨none, stdin, childs, false, false, 0, [], []⟩

/-- The reference tokenization of one whitespace-mode line (spec 4.1
Tokenizer, whitespace mode): skip leading whitespace, a token runs to the
next whitespace or end.  Structural on a fuel bound, see `wsTokens`. -/
def wsTokensGo : Nat → List Nat → List (List Nat)
  | 0, _ => []
  | fuel + 1, s =>
    match s.dropWhile isspace with
    | [] => []
    | c1 :: cs1 =>
      (c1 :: cs1).takeWhile notSpace :: wsTokensGo fuel ((c1 :: cs1).dropWhile notSpace)

/-- `wsTokensGo` with enough fuel. -/
def wsTokens (s : List Nat) : List (List Nat) := wsTokensGo (s.length + 1) s

/-- The tokens one `getdelim` string contributes: under `-0` the string is
one token, otherwise its whitespace-delimited words. -/
def lineTokens (cfg : Cfg) (d : List Nat) : List (List Nat) :=
  if cfg.flag0 then [d] else wsTokens d

/-- The tokenization of the whole input stream. -/
def inputTokens (cfg : Cfg) (stdin : List (List Nat)) : List (List Nat) :=
  stdin.flatMap (lineTokens cfg)

/-- The tokens still carried by a leftover `data` string, if any. -/
def pendTokens (cfg : Cfg) : Option (List Nat) → List (List Nat)
  | none => []
  | some l => lineTokens cfg l

/-- Truncation at (and excluding) the first stop-string token, the identity
when no stop string is configured. -/
def truncE (cfg : Cfg) (ts : List (List Nat)) : List (List Nat) :=
  match cfg.E with
  | none => ts
  | some et => ts.takeWhile (fun t => decide (t ≠ et))

/-- The byte cost one whitespace-mode token adds to `TT.bytes` when
accepted: the overhead of line 68 plus the `L+1` increments of lines 69-73. -/
def wsCost (cfg : Cfg) (t : List Nat) : Int := wsOvh cfg + t.length + 1

/-- The byte cost one `-0`-mode token adds to `TT.bytes` when accepted
(line 83). -/
def nulCost (t : List Nat) : Int := (ptrSize : Int) + t.length + 1

/-- The byte cost of one token in the active mode. -/
def tokCost (cfg : Cfg) (t : List Nat) : Int :=
  if cfg.flag0 then nulCost t else wsCost cfg t

/-- Total byte cost of a batch's tokens. -/
def sumCost (cfg : Cfg) (ts : List (List Nat)) : Int := (ts.map (tokCost cfg)).sum

/-- Total whitespace-mode byte cost of a token list. -/
def sumWs (cfg : Cfg) (ts : List (List Nat)) : Int := (ts.map (wsCost cfg)).sum

/-- Agreement of the return values of the two passes of `handle_entries`:
they are equal, except that where the counting pass reports
`(char *)1` (limits hit, all data consumed) the filling pass — whose string
position has already been advanced past the overwritten delimiter — may
simply run off the end of the string and return `NULL`.  The filling pass's
return value is ignored by `xargs_main`, so the two are interchangeable. -/
def retAgree (r1 r2 : HRet) : Prop :=
  r1 = r2 ∨ (r1 = .fullConsumed ∧ r2 = .needMore)

/-! ### Shared concrete examples (used by witnesses and counterexamples) -/

/-- `xargs -s 1000 -n 1 echo` — whitespace mode, explicit limits. -/
def exCfgN1 : Cfg := ⟨true, false, false, 1000, 1, none, [[101, 99, 104, 111]]⟩

/-- `xargs -s 15 e` — whitespace mode, tiny explicit size limit. -/
def exCfgTiny : Cfg := ⟨true, false, false, 15, 0, none, [[101]]⟩

/-- `xargs -0 -s 100 echo` — null-delimited mode with an explicit limit. -/
def exCfgNul : Cfg := ⟨true, true, false, 100, 0, none, [[101, 99, 104, 111]]⟩

/-- `xargs -s 100 echo` — whitespace mode with an explicit limit. -/
def exCfgWs : Cfg := ⟨true, false, false, 100, 0, none, [[101, 99, 104, 111]]⟩

/-- `xargs -s 1000` — no command words at all (the `echo` default applies). -/
def exCfgEcho : Cfg := ⟨true, false, false, 1000, 0, none, []⟩

/-- `xargs -s 1000 -r echo` — skip-if-empty enabled. -/
def exCfgR : Cfg := ⟨true, false, true, 1000, 0, none, [[101, 99, 104, 111]]⟩

/-! ## General list helpers -/

theorem dropWhile_head_false {p : Nat → Bool} :
    ∀ {l a t}, List.dropWhile p l = a :: t → p a = false := by
  intro l
  induction l with
  | nil => intro a t h; simp [List.dropWhile] at h
  | cons x xs ih =>
    intro a t h
    by_cases hx : p x
    · rw [List.dropWhile_cons_of_pos hx] at h
      exact ih h
    · rw [List.dropWhile_cons_of_neg hx] at h
      cases h
      simpa using hx

theorem length_dropWhile_le (p : Nat → Bool) (l : List Nat) :
    (List.dropWhile p l).length ≤ l.length := by
  induction l with
  | nil => simp [List.dropWhile]
  | cons x xs ih =>
    by_cases hx : p x
    · rw [List.dropWhile_cons_of_pos hx]
      simp
      omega
    · rw [List.dropWhile_cons_of_neg hx]

/-! ## Characterization of the byte-counting loop -/

theorem byteLoop_nil (cfg : Cfg) (b : Int) :
    byteLoop cfg b [] = if b + 1 ≥ cfg.s then (b + 1, none) else (b + 1, some []) := by
  unfold byteLoop
  split <;> rfl

theorem byteLoop_cons (cfg : Cfg) (b : Int) (c : Nat) (cs : List Nat) :
    byteLoop cfg b (c :: cs) =
      if b + 1 ≥ cfg.s then (b + 1, none)
      else if isspace c then (b + 1, some (c :: cs)) else byteLoop cfg (b + 1) cs := by
  conv_lhs => unfold byteLoop

theorem byteLoop_some_le (cfg : Cfg) :
    ∀ (s : List Nat) (b b' : Int) (r : List Nat),
      byteLoop cfg b s = (b', some r) → r.length ≤ s.length := by
  intro s
  induction s with
  | nil =>
    intro b b' r h
    rw [byteLoop_nil] at h
    split at h
    · exact absurd h (by simp)
    · simp at h
      simp [h]
  | cons c cs ih =>
    intro b b' r h
    rw [byteLoop_cons] at h
    split at h
    · exact absurd h (by simp)
    · by_cases hc : isspace c
      · rw [if_pos hc] at h
        simp at h
        simp [h]
      · rw [if_neg hc] at h
        have := ih _ _ _ h
        simp
        omega

theorem byteLoop_fst_ge (cfg : Cfg) :
    ∀ (s : List Nat) (b : Int), b + 1 ≤ (byteLoop cfg b s).1 := by
  intro s
  induction s with
  | nil => intro b; rw [byteLoop_nil]; split <;> simp
  | cons c cs ih =>
    intro b
    rw [byteLoop_cons]
    split
    · simp
    · by_cases hc : isspace c
      · simp [hc]
      · rw [if_neg hc]
        have := ih (b + 1)
        omega

theorem byteLoop_ok (cfg : Cfg) :
    ∀ (s : List Nat) (b : Int),
      b + ((s.takeWhile notSpace).length : Int) + 1 < cfg.s →
      byteLoop cfg b s = (b + ((s.takeWhile notSpace).length : Int) + 1,
        some (s.dropWhile notSpace)) := by
  intro s
  induction s with
  | nil =>
    intro b h
    simp only [List.takeWhile_nil, List.length_nil, Int.ofNat_zero] at h ⊢
    rw [byteLoop_nil, if_neg (by omega)]
    simp
  | cons c cs ih =>
    intro b h
    by_cases hc : isspace c
    · have hns : notSpace c = false := by simp [notSpace, hc]
      rw [List.takeWhile_cons_of_neg (by simp [hns])] at h ⊢
      rw [List.dropWhile_cons_of_neg (by simp [hns])]
      simp only [List.length_nil, Int.ofNat_zero] at h ⊢
      rw [byteLoop_cons, if_neg (by omega), if_pos hc]
      simp
    · have hns : notSpace c = true := by simp [notSpace, hc]
      rw [List.takeWhile_cons_of_pos hns] at h ⊢
      rw [List.dropWhile_cons_of_pos hns]
      simp only [List.length_cons] at h ⊢
      rw [byteLoop_cons, if_neg (by push_cast at h ⊢; omega), if_neg hc]
      rw [ih (b + 1) (by push_cast at h ⊢; omega)]
      congr 1
      push_cast
      ring

theorem byteLoop_none (cfg : Cfg) :
    ∀ (s : List Nat) (b : Int),
      b + ((s.takeWhile notSpace).length : Int) + 1 ≥ cfg.s →
      (byteLoop cfg b s).2 = none := by
  intro s
  induction s with
  | nil =>
    intro b h
    simp only [List.takeWhile_nil, List.length_nil, Int.ofNat_zero] at h
    rw [byteLoop_nil, if_pos (by omega)]
  | cons c cs ih =>
    intro b h
    by_cases hc : isspace c
    · have hns : notSpace c = false := by simp [notSpace, hc]
      rw [List.takeWhile_cons_of_neg (by simp [hns])] at h
      simp only [List.length_nil, Int.ofNat_zero] at h
      rw [byteLoop_cons, if_pos (by omega)]
    · have hns : notSpace c = true := by simp [notSpace, hc]
      rw [List.takeWhile_cons_of_pos hns] at h
      simp only [List.length_cons] at h
      by_cases hb : b + 1 ≥ cfg.s
      · rw [byteLoop_cons, if_pos hb]
      · rw [byteLoop_cons, if_neg hb, if_neg hc]
        exact ih (b + 1) (by push_cast at h ⊢; omega)

/-- Both fuel branches of `wsFillGo` coincide on the empty string. -/
theorem wsFillGo_nil (cfg : Cfg) (fuel : Nat) (b : Int) (e : Nat) (acc : List (List Nat)) :
    wsFillGo cfg fuel b e [] acc = ⟨b, e, acc, .needMore⟩ := by
  cases fuel <;> rfl

/-- Both fuel branches of `wsCountGo` coincide on the empty string. -/
theorem wsCountGo_nil (cfg : Cfg) (fuel : Nat) (b : Int) (e : Nat) :
    wsCountGo cfg fuel b e [] = ⟨b, e, .needMore⟩ := by
  cases fuel <;> rfl

/-! ## The reference tokenizer -/

theorem dropWhile_idem (p : Nat → Bool) (l : List Nat) :
    List.dropWhile p (List.dropWhile p l) = List.dropWhile p l := by
  cases h : List.dropWhile p l with
  | nil => rfl
  | cons a t => rw [List.dropWhile_cons_of_neg (by simp [dropWhile_head_false h])]

theorem wsTokensGo_irrel :
    ∀ (n : Nat) (s : List Nat) (fuel fuel' : Nat), s.length ≤ n →
      s.length < fuel → s.length < fuel' → wsTokensGo fuel s = wsTokensGo fuel' s := by
  intro n
  induction n with
  | zero =>
    intro s fuel fuel' hn h1 h2
    have : s = [] := by cases s <;> simp_all
    subst this
    obtain ⟨f1, rfl⟩ : ∃ f1, fuel = f1 + 1 := ⟨fuel - 1, by omega⟩
    obtain ⟨f2, rfl⟩ : ∃ f2, fuel' = f2 + 1 := ⟨fuel' - 1, by omega⟩
    rfl
  | succ n ih =>
    intro s fuel fuel' hn h1 h2
    obtain ⟨f1, rfl⟩ : ∃ f1, fuel = f1 + 1 := ⟨fuel - 1, by omega⟩
    obtain ⟨f2, rfl⟩ : ∃ f2, fuel' = f2 + 1 := ⟨fuel' - 1, by omega⟩
    show wsTokensGo (f1 + 1) s = wsTokensGo (f2 + 1) s
    unfold wsTokensGo
    cases h : s.dropWhile isspace with
    | nil => rfl
    | cons c1 cs1 =>
      have hc1 : isspace c1 = false := dropWhile_head_false h
      have hlen1 : (c1 :: cs1).length ≤ s.length := by
        rw [← h]; exact length_dropWhile_le _ _
      have hlen2 : ((c1 :: cs1).dropWhile notSpace).length ≤ cs1.length := by
        rw [List.dropWhile_cons_of_pos (by simp [notSpace, hc1])]
        exact length_dropWhile_le _ _
      simp only [List.length_cons] at hlen1
      have hrec : ((c1 :: cs1).dropWhile notSpace).length ≤ n := by omega
      dsimp only
      rw [ih _ f1 f2 hrec (by omega) (by omega)]

theorem wsTokensGo_eq (fuel : Nat) (s : List Nat) (h : s.length < fuel) :
    wsTokensGo fuel s = wsTokens s :=
  wsTokensGo_irrel s.length s fuel (s.length + 1) le_rfl h (by omega)

/-- Unfolding `wsTokens` when the line is all whitespace. -/
theorem wsTokens_nil_of_drop {s : List Nat} (h : s.dropWhile isspace = []) :
    wsTokens s = [] := by
  unfold wsTokens wsTokensGo
  rw [h]

/-- Unfolding `wsTokens` at the first token. -/
theorem wsTokens_cons_tok {s : List Nat} {c1 : Nat} {cs1 : List Nat}
    (h : s.dropWhile isspace = c1 :: cs1) :
    wsTokens s = (c1 :: cs1).takeWhile notSpace ::
      wsTokens ((c1 :: cs1).dropWhile notSpace) := by
  have hc1 : isspace c1 = false := dropWhile_head_false h
  have hlen1 : (c1 :: cs1).length ≤ s.length := by
    rw [← h]; exact length_dropWhile_le _ _
  have hlen2 : ((c1 :: cs1).dropWhile notSpace).length ≤ cs1.length := by
    rw [List.dropWhile_cons_of_pos (by simp [notSpace, hc1])]
    exact length_dropWhile_le _ _
  simp only [List.length_cons] at hlen1
  unfold wsTokens wsTokensGo
  rw [h]
  dsimp only
  rw [wsTokensGo_eq s.length _ (by omega)]
  rfl

/-- Tokenizing a line and tokenizing it with its leading whitespace removed
agree. -/
theorem wsTokens_eq_drop (s : List Nat) :
    wsTokens s = wsTokens (s.dropWhile isspace) := by
  cases h : s.dropWhile isspace with
  | nil => rw [wsTokens_nil_of_drop h, wsTokens_nil_of_drop (by simp)]
  | cons c1 cs1 =>
    rw [wsTokens_cons_tok h]
    have h2 : (c1 :: cs1).dropWhile isspace = c1 :: cs1 := by
      rw [← h, dropWhile_idem]
    rw [wsTokens_cons_tok h2]

/-- Dropping one leading whitespace byte does not change the tokens. -/
theorem wsTokens_skip {d : Nat} (r : List Nat) (hd : isspace d = true) :
    wsTokens (d :: r) = wsTokens r := by
  rw [wsTokens_eq_drop (d :: r), List.dropWhile_cons_of_pos hd, ← wsTokens_eq_drop r]

/-! ## The whitespace-mode filling pass, characterized -/

theorem wsOvh_nonneg (cfg : Cfg) : 0 ≤ wsOvh cfg := by
  unfold wsOvh
  split <;> simp [ptrSize]

theorem byteLoop_some_char (cfg : Cfg) {s : List Nat} {b b2 : Int} {sAfter : List Nat}
    (h : byteLoop cfg b s = (b2, some sAfter)) :
    b2 = b + ((s.takeWhile notSpace).length : Int) + 1 ∧
      sAfter = s.dropWhile notSpace ∧ b2 < cfg.s := by
  by_cases hlt : b + ((s.takeWhile notSpace).length : Int) + 1 < cfg.s
  · rw [byteLoop_ok cfg s b hlt] at h
    obtain ⟨h1, h2⟩ := Prod.mk.injEq .. ▸ h
    exact ⟨h1.symm, by simpa using h2.symm, h1 ▸ hlt⟩
  · have hnone := byteLoop_none cfg s b (by omega)
    rw [h] at hnone
    simp at hnone

theorem wsFillGo_spec (cfg : Cfg) :
    ∀ (fuel : Nat) (s : List Nat), s.length < fuel →
    ∀ (b : Int) (e : Nat) (acc : List (List Nat)),
    ∃ (new : List (List Nat)) (b' : Int) (ret : HRet),
      wsFillGo cfg fuel b e s acc = ⟨b', e + new.length, acc ++ new, ret⟩ ∧
      (∀ t ∈ new, cfg.E ≠ some t) ∧
      b + sumWs cfg new ≤ b' ∧
      (new ≠ [] → b + sumWs cfg new < cfg.s) ∧
      ((ret = .needMore ∨ ret = .fullConsumed) → wsTokens s = new) ∧
      (∀ l, ret = .leftover l → wsTokens s = new ++ wsTokens l) ∧
      (ret = .stopHit → ∃ et rest, cfg.E = some et ∧ wsTokens s = new ++ et :: rest) ∧
      (ret = .fullConsumed → cfg.n ≠ 0 ∧ cfg.n ≤ e + new.length) := by
  intro fuel
  induction fuel with
  | zero => intro s hs; omega
  | succ fuel ih =>
    intro s hs b e acc
    cases s with
    | nil =>
      refine ⟨[], b, .needMore, by simp [wsFillGo], by simp, by simp [sumWs], by simp, ?_, ?_, ?_, ?_⟩
      · intro _; rw [wsTokens_nil_of_drop (by simp)]
      · intro l hl; cases hl
      · intro hl; cases hl
      · intro hl; cases hl
    | cons c0 cs0 =>
      show ∃ _ _ _, wsFillGo cfg (fuel + 1) b e (c0 :: cs0) acc = _ ∧ _
      unfold wsFillGo
      dsimp only
      by_cases hn : cfg.n ≠ 0 ∧ cfg.n ≤ e
      · rw [if_pos hn]
        by_cases hd : (c0 :: cs0).dropWhile isspace = []
        · rw [if_pos hd]
          refine ⟨[], b, .fullConsumed, by simp, by simp, by simp [sumWs], by simp, ?_, ?_, ?_, ?_⟩
          · intro _; rw [wsTokens_nil_of_drop hd]
          · intro l hl; cases hl
          · intro hl; cases hl
          · intro _; exact ⟨hn.1, by simpa using hn.2⟩
        · rw [if_neg hd]
          refine ⟨[], b, .leftover ((c0 :: cs0).dropWhile isspace), by simp, by simp,
            by simp [sumWs], by simp, ?_, ?_, ?_, ?_⟩
          · rintro (h | h) <;> cases h
          · intro l hl
            cases hl
            rw [← wsTokens_eq_drop]
            simp
          · intro hl; cases hl
          · intro hl; cases hl
      · rw [if_neg hn]
        cases hd : (c0 :: cs0).dropWhile isspace with
        | nil =>
          refine ⟨[], b, .needMore, by simp, by simp, by simp [sumWs], by simp, ?_, ?_, ?_, ?_⟩
          · intro _; rw [wsTokens_nil_of_drop hd]
          · intro l hl; cases hl
          · intro hl; cases hl
          · intro hl; cases hl
        | cons c1 cs1 =>
          dsimp only
          cases hbl : byteLoop cfg (b + wsOvh cfg) (c1 :: cs1) with
          | mk b2 ob =>
            cases ob with
            | none =>
              refine ⟨[], b2, .leftover (c1 :: cs1), by simp, by simp, ?_, by simp, ?_, ?_, ?_, ?_⟩
              · have h1 := byteLoop_fst_ge cfg (c1 :: cs1) (b + wsOvh cfg)
                rw [hbl] at h1
                have h2 := wsOvh_nonneg cfg
                simp only [sumWs, List.map_nil, List.sum_nil, add_zero]
                simp at h1
                omega
              · rintro (h | h) <;> cases h
              · intro l hl
                cases hl
                rw [wsTokens_eq_drop (c0 :: cs0), hd]
                simp
              · intro hl; cases hl
              · intro hl; cases hl
            | some sAfter =>
              dsimp only
              obtain ⟨hb2, hsa, hlt⟩ := byteLoop_some_char cfg hbl
              have hc1 : isspace c1 = false := dropWhile_head_false hd
              by_cases hE : cfg.E = some ((c1 :: cs1).takeWhile notSpace)
              · rw [if_pos hE]
                refine ⟨[], b2, .stopHit, by simp, by simp, ?_, by simp, ?_, ?_, ?_, ?_⟩
                · have h2 := wsOvh_nonneg cfg
                  simp only [sumWs, List.map_nil, List.sum_nil, add_zero]
                  omega
                · rintro (h | h) <;> cases h
                · intro l hl; cases hl
                · intro _
                  exact ⟨(c1 :: cs1).takeWhile notSpace,
                    wsTokens ((c1 :: cs1).dropWhile notSpace), hE, by
                      rw [wsTokens_cons_tok hd]; simp⟩
                · intro hl; cases hl
              · rw [if_neg hE]
                have hlen : sAfter.tail.length < fuel := by
                  have h1 : (c1 :: cs1).length ≤ (c0 :: cs0).length := by
                    rw [← hd]; exact length_dropWhile_le _ _
                  have h2 : sAfter.length ≤ cs1.length := by
                    rw [hsa, List.dropWhile_cons_of_pos (by simp [notSpace, hc1])]
                    exact length_dropWhile_le _ _
                  have h3 : sAfter.tail.length ≤ sAfter.length := by
                    cases sAfter <;> simp
                  simp only [List.length_cons] at h1 hs
                  omega
                obtain ⟨new2, b'', ret, hEq, hEfree, hle, hstrict, htok, hleft, hstop, hfc⟩ :=
                  ih sAfter.tail hlen b2 (e + 1) (acc ++ [(c1 :: cs1).takeWhile notSpace])
                have hcost : b + wsCost cfg ((c1 :: cs1).takeWhile notSpace) = b2 := by
                  rw [wsCost, hb2]
                  ring
                have hws : wsTokens (c0 :: cs0) =
                    (c1 :: cs1).takeWhile notSpace :: wsTokens sAfter.tail := by
                  rw [wsTokens_cons_tok hd, ← hsa]
                  congr 1
                  cases hsa' : sAfter with
                  | nil => rfl
                  | cons d rest =>
                    have hdrop : List.dropWhile notSpace (c1 :: cs1) = d :: rest := by
                      rw [← hsa, hsa']
                    have hdns : notSpace d = false := dropWhile_head_false hdrop
                    have hdss : isspace d = true := by
                      simpa [notSpace] using hdns
                    simp only [List.tail_cons]
                    exact wsTokens_skip rest hdss
                refine ⟨(c1 :: cs1).takeWhile notSpace :: new2, b'', ret, ?_, ?_, ?_, ?_, ?_, ?_, ?_, ?_⟩
                · have hent : e + 1 + new2.length =
                      e + ((c1 :: cs1).takeWhile notSpace :: new2).length := by
                    simp only [List.length_cons]; omega
                  have htoks : acc ++ [(c1 :: cs1).takeWhile notSpace] ++ new2 =
                      acc ++ ((c1 :: cs1).takeWhile notSpace :: new2) := by simp
                  rw [hEq, hent, htoks]
                · intro t ht
                  rcases List.mem_cons.mp ht with rfl | ht2
                  · exact hE
                  · exact hEfree t ht2
                · simp only [sumWs, List.map_cons, List.sum_cons]
                  simp only [sumWs] at hle
                  omega
                · intro _
                  simp only [sumWs, List.map_cons, List.sum_cons]
                  cases hnew2 : new2 with
                  | nil =>
                    simp only [hnew2, List.map_nil, List.sum_nil, add_zero] at hle ⊢
                    omega
                  | cons x xs =>
                    have hstr := hstrict (by simp [hnew2])
                    simp only [sumWs, hnew2, List.map_cons, List.sum_cons] at hstr
                    simp only [List.map_cons, List.sum_cons]
                    omega
                · intro hr
                  rw [hws, htok hr]
                · intro l hr
                  rw [hws, hleft l hr]
                  simp
                · intro hr
                  obtain ⟨et, rest, hE', heq⟩ := hstop hr
                  exact ⟨et, rest, hE', by rw [hws, heq]; simp⟩
                · intro hr
                  obtain ⟨h1, h2⟩ := hfc hr
                  exact ⟨h1, by simp only [List.length_cons]; omega⟩

/-! ## Mode dispatch: one `handle_entries` call, both modes -/

theorem sumCost_ws (cfg : Cfg) (h : cfg.flag0 = false) (ts : List (List Nat)) :
    sumCost cfg ts = sumWs cfg ts := by
  unfold sumCost sumWs
  congr 1
  apply List.map_congr_left
  intro a _
  simp [tokCost, h]

/-- Everything `xargs_main` needs to know about one filling-pass call of
`handle_entries` on one buffered string `d`: the updated state, the tokens
it appends, their cost, and how those tokens relate to the reference
tokenization of `d` according to the returned value. -/
theorem handleFill_spec (cfg : Cfg) (b : Int) (e : Nat) (d : List Nat) (acc : List (List Nat)) :
    ∃ new b' ret,
      handleFill cfg b e d acc = ⟨b', e + new.length, acc ++ new, ret⟩ ∧
      ((cfg.flag0 = true → cfg.E = none) → ∀ t ∈ new, cfg.E ≠ some t) ∧
      b + sumCost cfg new ≤ b' ∧
      (new ≠ [] → b + sumCost cfg new < cfg.s) ∧
      ((ret = .needMore ∨ ret = .fullConsumed) → lineTokens cfg d = new) ∧
      (∀ l, ret = .leftover l → lineTokens cfg d = new ++ lineTokens cfg l) ∧
      (ret = .stopHit → ∃ et rest, cfg.E = some et ∧ lineTokens cfg d = new ++ et :: rest) := by
  unfold handleFill
  by_cases h0 : cfg.flag0
  · rw [if_pos h0]
    unfold nulFill
    by_cases hrej : b + (ptrSize : Int) + d.length + 1 ≥ cfg.s ∨ (cfg.n ≠ 0 ∧ cfg.n ≤ e)
    · rw [if_pos hrej]
      refine ⟨[], b, .leftover d, by simp, by simp, by simp [sumCost], by simp, ?_, ?_, ?_⟩
      · rintro (h | h) <;> cases h
      · intro l hl
        cases hl
        simp
      · intro hl; cases hl
    · rw [if_neg hrej]
      push_neg at hrej
      refine ⟨[d], b + (ptrSize : Int) + d.length + 1, .needMore, by simp, ?_, ?_, ?_, ?_, ?_, ?_⟩
      · intro hE0 t ht
        rw [hE0 h0]
        simp
      · simp only [sumCost, tokCost, h0, if_true, nulCost, List.map_cons, List.map_nil,
          List.sum_cons, List.sum_nil]
        omega
      · intro _
        simp only [sumCost, tokCost, h0, if_true, nulCost, List.map_cons, List.map_nil,
          List.sum_cons, List.sum_nil]
        omega
      · intro _
        simp [lineTokens, h0]
      · intro l hl; cases hl
      · intro hl; cases hl
  · rw [if_neg h0]
    unfold wsFill
    obtain ⟨new, b', ret, hEq, hEfree, hle, hstrict, htok, hleft, hstop, _⟩ :=
      wsFillGo_spec cfg (d.length + 1) d (by omega) b e acc
    refine ⟨new, b', ret, hEq, fun _ => hEfree, ?_, ?_, ?_, ?_, ?_⟩
    · rw [sumCost_ws cfg (by simpa using h0)]
      exact hle
    · rw [sumCost_ws cfg (by simpa using h0)]
      exact hstrict
    · intro hr
      rw [lineTokens, if_neg h0]
      exact htok hr
    · intro l hl
      rw [lineTokens, if_neg h0, lineTokens, if_neg h0]
      exact hleft l hl
    · intro hr
      obtain ⟨et, rest, hE', heq⟩ := hstop hr
      exact ⟨et, rest, hE', by rw [lineTokens, if_neg h0]; exact heq⟩

/-! ## Agreement of the counting and filling passes -/

/-- In the filling pass the string position is advanced past the delimiter
byte that was overwritten with NUL; skipping that one whitespace byte does
not change the counting pass's state, and changes its return value only
from `(char *)1` to `NULL`. -/
theorem wsCountGo_skip (cfg : Cfg) (fuel : Nat) (b : Int) (e : Nat) (d : Nat)
    (r : List Nat) (hd : isspace d = true) :
    (wsCountGo cfg (fuel + 1) b e (d :: r)).bytes = (wsCountGo cfg (fuel + 1) b e r).bytes ∧
    (wsCountGo cfg (fuel + 1) b e (d :: r)).entries = (wsCountGo cfg (fuel + 1) b e r).entries ∧
    retAgree (wsCountGo cfg (fuel + 1) b e (d :: r)).ret (wsCountGo cfg (fuel + 1) b e r).ret := by
  cases r with
  | nil =>
    have hdw : List.dropWhile isspace [d] = [] := by
      rw [List.dropWhile_cons_of_pos hd]; rfl
    unfold wsCountGo
    dsimp only
    rw [hdw]
    by_cases hn : cfg.n ≠ 0 ∧ cfg.n ≤ e
    · rw [if_pos hn]
      exact ⟨rfl, rfl, Or.inr ⟨rfl, rfl⟩⟩
    · rw [if_neg hn]
      exact ⟨rfl, rfl, Or.inl rfl⟩
  | cons r0 rs =>
    have hdw : List.dropWhile isspace (d :: r0 :: rs) = List.dropWhile isspace (r0 :: rs) :=
      List.dropWhile_cons_of_pos hd
    unfold wsCountGo
    dsimp only
    rw [hdw]
    exact ⟨rfl, rfl, Or.inl rfl⟩

theorem wsGo_agree (cfg : Cfg) :
    ∀ (fuel : Nat) (s : List Nat), s.length < fuel →
    ∀ (b : Int) (e : Nat) (acc : List (List Nat)),
      (wsCountGo cfg fuel b e s).bytes = (wsFillGo cfg fuel b e s acc).bytes ∧
      (wsCountGo cfg fuel b e s).entries = (wsFillGo cfg fuel b e s acc).entries ∧
      retAgree (wsCountGo cfg fuel b e s).ret (wsFillGo cfg fuel b e s acc).ret := by
  intro fuel
  induction fuel with
  | zero => intro s hs; omega
  | succ fuel ih =>
    intro s hs b e acc
    cases s with
    | nil =>
      rw [wsCountGo_nil, wsFillGo_nil]
      exact ⟨rfl, rfl, Or.inl rfl⟩
    | cons c0 cs0 =>
      show (wsCountGo cfg (fuel + 1) b e (c0 :: cs0)).bytes = _ ∧ _
      unfold wsCountGo wsFillGo
      dsimp only
      by_cases hn : cfg.n ≠ 0 ∧ cfg.n ≤ e
      · rw [if_pos hn, if_pos hn]
        exact ⟨rfl, rfl, Or.inl rfl⟩
      · rw [if_neg hn, if_neg hn]
        cases hdw : List.dropWhile isspace (c0 :: cs0) with
        | nil => exact ⟨rfl, rfl, Or.inl rfl⟩
        | cons c1 cs1 =>
          dsimp only
          cases hbl : byteLoop cfg (b + wsOvh cfg) (c1 :: cs1) with
          | mk b2 ob =>
            cases ob with
            | none => exact ⟨rfl, rfl, Or.inl rfl⟩
            | some sAfter =>
              dsimp only
              by_cases hE : cfg.E = some ((c1 :: cs1).takeWhile notSpace)
              · rw [if_pos hE, if_pos hE]
                exact ⟨rfl, rfl, Or.inl rfl⟩
              · rw [if_neg hE, if_neg hE]
                obtain ⟨hb2, hsa, hlt⟩ := byteLoop_some_char cfg hbl
                have hc1 : isspace c1 = false := dropWhile_head_false hdw
                have hlen : sAfter.length < fuel := by
                  have h1 : (c1 :: cs1).length ≤ (c0 :: cs0).length := by
                    rw [← hdw]; exact length_dropWhile_le _ _
                  have h2 : sAfter.length ≤ cs1.length := by
                    rw [hsa, List.dropWhile_cons_of_pos (by simp [notSpace, hc1])]
                    exact length_dropWhile_le _ _
                  simp only [List.length_cons] at h1 hs
                  omega
                cases hsa' : sAfter with
                | nil =>
                  rw [wsCountGo_nil]
                  simp only [List.tail_nil]
                  rw [wsFillGo_nil]
                  exact ⟨rfl, rfl, Or.inl rfl⟩
                | cons a0 as0 =>
                  have ha0 : isspace a0 = true := by
                    have hdrop : List.dropWhile notSpace (c1 :: cs1) = a0 :: as0 := by
                      rw [← hsa, hsa']
                    have := dropWhile_head_false hdrop
                    simpa [notSpace] using this
                  rw [hsa'] at hlen
                  simp only [List.length_cons] at hlen
                  obtain ⟨f', rfl⟩ : ∃ f', fuel = f' + 1 := ⟨fuel - 1, by omega⟩
                  have hskip := wsCountGo_skip cfg f' b2 (e + 1) a0 as0 ha0
                  have hih := ih as0 (by omega) b2 (e + 1)
                    (acc ++ [(c1 :: cs1).takeWhile notSpace])
                  simp only [List.tail_cons]
                  refine ⟨hskip.1.trans hih.1, hskip.2.1.trans hih.2.1, ?_⟩
                  rcases hskip.2.2 with hre | ⟨hfc, hnm⟩
                  · rw [hre]
                    exact hih.2.2
                  · rcases hih.2.2 with hre2 | ⟨hfc2, _⟩
                    · rw [hfc, ← hre2, hnm]
                      exact Or.inr ⟨rfl, rfl⟩
                    · rw [hnm] at hfc2
                      cases hfc2

theorem handle_agree (cfg : Cfg) (b : Int) (e : Nat) (d : List Nat) (acc : List (List Nat)) :
    (handleCount cfg b e d).bytes = (handleFill cfg b e d acc).bytes ∧
    (handleCount cfg b e d).entries = (handleFill cfg b e d acc).entries ∧
    retAgree (handleCount cfg b e d).ret (handleFill cfg b e d acc).ret := by
  unfold handleCount handleFill
  by_cases h0 : cfg.flag0
  · rw [if_pos h0, if_pos h0]
    unfold nulCount nulFill
    by_cases hrej : b + (ptrSize : Int) + d.length + 1 ≥ cfg.s ∨ (cfg.n ≠ 0 ∧ cfg.n ≤ e)
    · rw [if_pos hrej, if_pos hrej]
      exact ⟨rfl, rfl, Or.inl rfl⟩
    · rw [if_neg hrej, if_neg hrej]
      exact ⟨rfl, rfl, Or.inl rfl⟩
  · rw [if_neg h0, if_neg h0]
    exact wsGo_agree cfg (d.length + 1) d (by omega) b e acc

/-- The counting pass reports `(char *)1` only when the `-n` limit is the
reason it stopped. -/
theorem wsCountGo_fc (cfg : Cfg) :
    ∀ (fuel : Nat) (s : List Nat) (b : Int) (e : Nat),
      (wsCountGo cfg fuel b e s).ret = .fullConsumed →
      cfg.n ≠ 0 ∧ cfg.n ≤ (wsCountGo cfg fuel b e s).entries := by
  intro fuel
  induction fuel with
  | zero => intro s b e h; cases h
  | succ fuel ih =>
    intro s b e h
    cases s with
    | nil => rw [wsCountGo_nil] at h ⊢; cases h
    | cons c0 cs0 =>
      unfold wsCountGo at h ⊢
      dsimp only at h ⊢
      by_cases hn : cfg.n ≠ 0 ∧ cfg.n ≤ e
      · rw [if_pos hn] at h ⊢
        exact hn
      · rw [if_neg hn] at h ⊢
        cases hdw : List.dropWhile isspace (c0 :: cs0) with
        | nil =>
          rw [hdw] at h
          dsimp only at h
          cases h
        | cons c1 cs1 =>
          rw [hdw] at h
          dsimp only at h ⊢
          cases hbl : byteLoop cfg (b + wsOvh cfg) (c1 :: cs1) with
          | mk b2 ob =>
            rw [hbl] at h
            cases ob with
            | none =>
              dsimp only at h
              cases h
            | some sAfter =>
              dsimp only at h ⊢
              by_cases hE : cfg.E = some ((c1 :: cs1).takeWhile notSpace)
              · rw [if_pos hE] at h
                dsimp only at h
                cases h
              · rw [if_neg hE] at h ⊢
                exact ih sAfter b2 (e + 1) h

theorem handleCount_fc (cfg : Cfg) (b : Int) (e : Nat) (d : List Nat)
    (h : (handleCount cfg b e d).ret = .fullConsumed) :
    cfg.n ≠ 0 ∧ cfg.n ≤ (handleCount cfg b e d).entries := by
  unfold handleCount at h ⊢
  by_cases h0 : cfg.flag0
  · rw [if_pos h0] at h ⊢
    unfold nulCount at h ⊢
    dsimp only at h ⊢
    split at h <;> simp at h
  · rw [if_neg h0] at h ⊢
    exact wsCountGo_fc cfg (d.length + 1) d b e h

theorem retAgree_nm {r : HRet} (h : retAgree .needMore r) : r = .needMore := by
  rcases h with h | ⟨h1, _⟩
  · exact h.symm
  · cases h1

theorem retAgree_fc {r : HRet} (h : retAgree .fullConsumed r) :
    r = .needMore ∨ r = .fullConsumed := by
  rcases h with h | ⟨_, h2⟩
  · exact Or.inr h.symm
  · exact Or.inl h2

theorem retAgree_stop {r : HRet} (h : retAgree .stopHit r) : r = .stopHit := by
  rcases h with h | ⟨h1, _⟩
  · exact h.symm
  · cases h1

theorem retAgree_left {l : List Nat} {r : HRet} (h : retAgree (.leftover l) r) :
    r = .leftover l := by
  rcases h with h | ⟨h1, _⟩
  · exact h.symm
  · cases h1

/-! ## The inner read loop against the filling pass -/

theorem inputTokens_nil (cfg : Cfg) : inputTokens cfg [] = [] := rfl

theorem inputTokens_cons (cfg : Cfg) (d : List Nat) (rest : List (List Nat)) :
    inputTokens cfg (d :: rest) = lineTokens cfg d ++ inputTokens cfg rest := by
  simp [inputTokens]

theorem inputTokens_append (cfg : Cfg) (xs ys : List (List Nat)) :
    inputTokens cfg (xs ++ ys) = inputTokens cfg xs ++ inputTokens cfg ys := by
  simp [inputTokens]

/-- Buffering the previous batch's leftover string first and then reading is
the same as reading with the leftover prepended to the stream. -/
theorem readLoop_eq (cfg : Cfg) (b : Int) (e : Nat) (pending : Option (List Nat))
    (stdin : List (List Nat)) :
    readLoop cfg b e pending stdin = readLines cfg b e (pending.toList ++ stdin) := by
  cases pending <;> rfl

theorem pendTokens_toList (cfg : Cfg) (pending : Option (List Nat)) :
    inputTokens cfg pending.toList = pendTokens cfg pending := by
  cases pending <;> simp [inputTokens, pendTokens]

/-- The central correspondence for one batch: the counting pass drives the
read loop, and replaying the buffered lines with the filling pass from the
same initial state yields exactly `r.entries` tokens, the same byte tally,
and tokens that follow the reference tokenization of the consumed input
(split at the leftover, or at the `-E` stop string). -/
theorem readLines_spec (cfg : Cfg) :
    ∀ (stdin : List (List Nat)) (b : Int) (e : Nat) (acc : List (List Nat)) (r : ReadRes),
      readLines cfg b e stdin = r →
      ∃ new bf,
        fillPass cfg b e acc r.dlist = (bf, r.entries, acc ++ new) ∧
        bf = r.bytes ∧
        r.entries = e + new.length ∧
        ((cfg.flag0 = true → cfg.E = none) → ∀ t ∈ new, cfg.E ≠ some t) ∧
        b + sumCost cfg new ≤ bf ∧
        (new ≠ [] → b + sumCost cfg new < cfg.s) ∧
        (r.done = true → r.pending = none ∧
          (inputTokens cfg stdin = new ∨
           ∃ et rest, cfg.E = some et ∧ inputTokens cfg stdin = new ++ et :: rest)) ∧
        (r.done = false →
          inputTokens cfg stdin = new ++ pendTokens cfg r.pending ++ inputTokens cfg r.stdin) ∧
        (r.done = false → r.pending ≠ none ∨ (cfg.n ≠ 0 ∧ cfg.n ≤ r.entries)) := by
  intro stdin
  induction stdin with
  | nil =>
    intro b e acc r hr
    unfold readLines at hr
    subst hr
    refine ⟨[], b, by simp [fillPass], rfl, by simp, by simp, by simp [sumCost], by simp, ?_, ?_, ?_⟩
    · intro _
      exact ⟨rfl, Or.inl rfl⟩
    · intro h; cases h
    · intro h; cases h
  | cons d rest ih =>
    intro b e acc r hr
    obtain ⟨new1, bf1, retf, hF, hEf, hle1, hstrict1, htokF, hleftF, hstopF⟩ :=
      handleFill_spec cfg b e d acc
    have hag := handle_agree cfg b e d acc
    rw [hF] at hag
    unfold readLines at hr
    cases hcEq : handleCount cfg b e d with
    | mk bc ec retc =>
      rw [hcEq] at hr hag
      simp only at hag
      obtain ⟨hagB, hagE, hagR⟩ := hag
      subst hagB
      subst hagE
      cases retc with
      | needMore =>
        have hretf : retf = .needMore := retAgree_nm hagR
        have htok1 : lineTokens cfg d = new1 := htokF (Or.inl hretf)
        dsimp only at hr
        obtain ⟨new2, bf2, hFP2, hbf2, hent2, hEf2, hle2, hstrict2, hdone2, hnd2, hnp2⟩ :=
          ih bc (e + new1.length) (acc ++ new1)
            (readLines cfg bc (e + new1.length) rest) rfl
        subst hr
        dsimp only
        refine ⟨new1 ++ new2, bf2, ?_, hbf2, ?_, ?_, ?_, ?_, ?_, ?_, ?_⟩
        · unfold fillPass
          rw [hF]
          dsimp only
          rw [hFP2]
          simp
        · rw [hent2]
          simp only [List.length_append]
          omega
        · intro hE0 t ht
          rcases List.mem_append.mp ht with h1 | h2
          · exact hEf hE0 t h1
          · exact hEf2 hE0 t h2
        · simp only [sumCost, List.map_append, List.sum_append]
          simp only [sumCost] at hle1 hle2
          omega
        · intro hne
          simp only [sumCost, List.map_append, List.sum_append]
          simp only [sumCost] at hle1 hstrict1 hstrict2
          by_cases hnew2 : new2 = []
          · have hne1 : new1 ≠ [] := by
              intro h
              rw [h, hnew2] at hne
              exact hne rfl
            have h1 := hstrict1 hne1
            rw [hnew2]
            simp
            omega
          · have h2 := hstrict2 hnew2
            omega
        · intro hd
          obtain ⟨hp, htoks⟩ := hdone2 hd
          refine ⟨hp, ?_⟩
          rw [inputTokens_cons, htok1]
          rcases htoks with h1 | ⟨et, rest', hE', h2⟩
          · rw [h1]
            exact Or.inl rfl
          · exact Or.inr ⟨et, rest', hE', by rw [h2, List.append_assoc]⟩
        · intro hd
          rw [inputTokens_cons, htok1, hnd2 hd]
          simp
        · intro hd
          rcases hnp2 hd with h1 | h2
          · exact Or.inl h1
          · exact Or.inr h2
      | fullConsumed =>
        have hretf : retf = .needMore ∨ retf = .fullConsumed := retAgree_fc hagR
        have htok1 : lineTokens cfg d = new1 := by
          rcases hretf with h | h
          · exact htokF (Or.inl h)
          · exact htokF (Or.inr h)
        dsimp only at hr
        subst hr
        have hnfact := handleCount_fc cfg b e d (by rw [hcEq])
        rw [hcEq] at hnfact
        dsimp only
        refine ⟨new1, bc, ?_, rfl, rfl, fun h => hEf h, hle1, hstrict1, ?_, ?_, ?_⟩
        · unfold fillPass
          rw [hF]
          rfl
        · intro h; cases h
        · intro _
          rw [inputTokens_cons, htok1]
          simp [pendTokens]
        · intro _
          exact Or.inr (by simpa using hnfact)
      | stopHit =>
        have hretf : retf = .stopHit := retAgree_stop hagR
        obtain ⟨et, rest', hE', htok1⟩ := hstopF hretf
        dsimp only at hr
        subst hr
        dsimp only
        refine ⟨new1, bc, ?_, rfl, rfl, fun h => hEf h, hle1, hstrict1, ?_, ?_, ?_⟩
        · unfold fillPass
          rw [hF]
          rfl
        · intro _
          refine ⟨rfl, Or.inr ⟨et, rest' ++ inputTokens cfg rest, hE', ?_⟩⟩
          rw [inputTokens_cons, htok1]
          simp
        · intro h; cases h
        · intro h; cases h
      | leftover l =>
        have hretf : retf = .leftover l := retAgree_left hagR
        have htok1 : lineTokens cfg d = new1 ++ lineTokens cfg l := hleftF l hretf
        dsimp only at hr
        subst hr
        dsimp only
        refine ⟨new1, bc, ?_, rfl, rfl, fun h => hEf h, hle1, hstrict1, ?_, ?_, ?_⟩
        · unfold fillPass
          rw [hF]
          rfl
        · intro h; cases h
        · intro _
          rw [inputTokens_cons, htok1]
          simp [pendTokens]
        · intro _
          exact Or.inl (by simp)

/-- `readLines_spec`, re-based at the full read loop (leftover included). -/
theorem readLoop_spec (cfg : Cfg) (b : Int) (e : Nat) (acc : List (List Nat))
    (pending : Option (List Nat)) (stdin : List (List Nat)) (r : ReadRes)
    (hr : readLoop cfg b e pending stdin = r) :
    ∃ new bf,
      fillPass cfg b e acc r.dlist = (bf, r.entries, acc ++ new) ∧
      bf = r.bytes ∧
      r.entries = e + new.length ∧
      ((cfg.flag0 = true → cfg.E = none) → ∀ t ∈ new, cfg.E ≠ some t) ∧
      b + sumCost cfg new ≤ bf ∧
      (new ≠ [] → b + sumCost cfg new < cfg.s) ∧
      (r.done = true → r.pending = none ∧
        (pendTokens cfg pending ++ inputTokens cfg stdin = new ∨
         ∃ et rest, cfg.E = some et ∧
           pendTokens cfg pending ++ inputTokens cfg stdin = new ++ et :: rest)) ∧
      (r.done = false →
        pendTokens cfg pending ++ inputTokens cfg stdin =
          new ++ pendTokens cfg r.pending ++ inputTokens cfg r.stdin) ∧
      (r.done = false → r.pending ≠ none ∨ (cfg.n ≠ 0 ∧ cfg.n ≤ r.entries)) := by
  rw [readLoop_eq] at hr
  obtain ⟨new, bf, hFP, hbf, hent, hEfree, hle, hstrict, hdone, hnd, hnp⟩ :=
    readLines_spec cfg (pending.toList ++ stdin) b e acc r hr
  rw [inputTokens_append, pendTokens_toList] at hdone hnd
  exact ⟨new, bf, hFP, hbf, hent, hEfree, hle, hstrict, hdone, hnd, hnp⟩

/-! ## Truncation at the stop string -/

theorem truncE_of_free (cfg : Cfg) {ts : List (List Nat)}
    (h : ∀ t ∈ ts, cfg.E ≠ some t) : truncE cfg ts = ts := by
  unfold truncE
  cases hE : cfg.E with
  | none => rfl
  | some et =>
    dsimp only
    apply List.takeWhile_eq_self_iff.mpr
    intro t ht
    have h2 := h t ht
    rw [hE] at h2
    simp only [decide_eq_true_eq]
    intro heq
    exact h2 (by rw [heq])

theorem truncE_append_free (cfg : Cfg) {new : List (List Nat)} (rest : List (List Nat))
    (h : ∀ t ∈ new, cfg.E ≠ some t) :
    truncE cfg (new ++ rest) = new ++ truncE cfg rest := by
  unfold truncE
  cases hE : cfg.E with
  | none => rfl
  | some et =>
    dsimp only
    induction new with
    | nil => simp
    | cons x xs ih =>
      have hx : x ≠ et := by
        have h2 := h x (by simp)
        rw [hE] at h2
        intro heq
        exact h2 (by rw [heq])
      rw [List.cons_append, List.takeWhile_cons_of_pos (by simpa using hx)]
      rw [ih (fun t ht => h t (by simp [ht]))]
      rfl

theorem truncE_stop (cfg : Cfg) {new : List (List Nat)} (rest : List (List Nat))
    {et : List Nat} (h : ∀ t ∈ new, cfg.E ≠ some t) (hE : cfg.E = some et) :
    truncE cfg (new ++ et :: rest) = new := by
  unfold truncE
  rw [hE]
  dsimp only
  induction new with
  | nil => simp
  | cons x xs ih =>
    have hx : x ≠ et := by
      have h2 := h x (by simp)
      rw [hE] at h2
      intro heq
      exact h2 (by rw [heq])
    rw [List.cons_append, List.takeWhile_cons_of_pos (by simpa using hx)]
    rw [ih (fun t ht => h t (by simp [ht]))]

/-! ## Child statuses -/

theorem classify_stop_eq (st : Wstatus) (ev : Nat) :
    (classifyStatus st ev).2.1 = stopsRun st := by
  cases st with
  | signaled => rfl
  | exited c =>
    unfold stopsRun classifyStatus
    dsimp only
    split_ifs <;> rfl

theorem nextStatus_no_stop {childs : List Wstatus}
    (h : ∀ c ∈ childs, stopsRun c = false) :
    stopsRun (nextStatus childs).1 = false ∧
      ∀ c ∈ (nextStatus childs).2, stopsRun c = false := by
  cases childs with
  | nil =>
    refine ⟨by decide, ?_⟩
    intro c hc
    simp [nextStatus] at hc
  | cons c r =>
    refine ⟨h c (by simp), ?_⟩
    intro c' hc'
    simp only [nextStatus] at hc'
    exact h c' (by simp [hc'])

theorem truncE_nil (cfg : Cfg) : truncE cfg [] = [] := by
  unfold truncE
  cases cfg.E <;> simp

/-! ## The exec-chunk loop -/

/-- Invariant of the exec-chunk loop used for the token-conservation claim:
on a run that terminates normally (no fatal error, no stopping child
status), the tokens of the batches executed from a loop state onward are
exactly the remaining input's tokens truncated at the stop string. -/
theorem runLoop_concat (cfg : Cfg) (pfx : List (List Nat)) (pb : Int)
    (hE0 : cfg.flag0 = true → cfg.E = none) :
    ∀ (fuel : Nat) (st : LoopSt) (res : RunResult),
      runLoop cfg pfx pb fuel st = some res →
      res.fatal = none →
      (∀ c ∈ st.childs, stopsRun c = false) →
      (st.done = true → st.pending = none) →
      res.batches.flatten = st.batches.flatten ++
        (if st.done = true then [] else
          truncE cfg (pendTokens cfg st.pending ++ inputTokens cfg st.stdin)) := by
  intro fuel
  induction fuel with
  | zero => intro st res h; cases h
  | succ fuel ih =>
    intro st res h hfat hstop hwf
    unfold runLoop at h
    by_cases hex : st.pending = none ∧ st.done = true
    · rw [if_pos hex] at h
      have hres := Option.some.inj h
      subst hres
      rw [if_pos hex.2]
      simp
    · rw [if_neg hex] at h
      dsimp only at h
      have hstF : st.done = false := by
        cases hd : st.done
        · rfl
        · exact absurd ⟨hwf hd, hd⟩ hex
      rw [if_neg (by simp [hstF])]
      generalize hrd : readLoop cfg pb 0 st.pending st.stdin = rr at h
      obtain ⟨new, bf, hFP, hbf, hent, hEfree, hle, hstrict, hdone, hnd, hnp⟩ :=
        readLoop_spec cfg pb 0 [] st.pending st.stdin rr hrd
      by_cases h1 : rr.entries = 0 ∧ rr.pending ≠ none
      · rw [if_pos h1] at h
        have hres := Option.some.inj h
        subst hres
        simp at hfat
      · rw [if_neg h1] at h
        by_cases h2 : rr.entries = 0 ∧ rr.pending = none ∧ st.pid = true
        · rw [if_pos h2] at h
          have hres := Option.some.inj h
          subst hres
          have hnew : new = [] := by
            have h3 := hent
            rw [h2.1] at h3
            exact List.eq_nil_of_length_eq_zero (by omega)
          subst hnew
          have hsuf : truncE cfg (pendTokens cfg st.pending ++ inputTokens cfg st.stdin) = [] := by
            cases hdn : rr.done
            · rcases hnp hdn with hpn | ⟨hn0, hnle⟩
              · exact absurd h2.2.1 hpn
              · rw [h2.1] at hnle
                omega
            · obtain ⟨hp, htoks⟩ := hdone hdn
              rcases htoks with h3 | ⟨et, rest, hE', h3⟩
              · rw [h3]
                exact truncE_nil cfg
              · rw [h3]
                exact truncE_stop cfg rest (by simp) hE'
          rw [hsuf]
          simp
        · rw [if_neg h2] at h
          by_cases h3 : rr.entries = 0 ∧ rr.pending = none ∧ st.pid = false ∧ cfg.flagR = true
          · rw [if_pos h3] at h
            have hrec := ih _ res h hfat hstop (by intro _; rfl)
            rw [hrec]
            dsimp only
            have hnew : new = [] := by
              have h4 := hent
              rw [h3.1] at h4
              exact List.eq_nil_of_length_eq_zero (by omega)
            subst hnew
            rw [hstF]
            simp only [Bool.false_or]
            congr 1
            cases hdn : rr.done
            · rcases hnp hdn with hpn | ⟨hn0, hnle⟩
              · exact absurd h3.2.1 hpn
              · rw [h3.1] at hnle
                omega
            · obtain ⟨hp, htoks⟩ := hdone hdn
              rw [if_pos rfl]
              rcases htoks with h4 | ⟨et, rest, hE', h4⟩
              · rw [h4, truncE_nil]
              · rw [h4, truncE_stop cfg rest (by simp) hE']
          · rw [if_neg h3] at h
            have hns := nextStatus_no_stop hstop
            have hcl : (classifyStatus (nextStatus st.childs).1 st.exitval).2.1 = false := by
              rw [classify_stop_eq]
              exact hns.1
            rw [if_neg (by simp [hcl])] at h
            have hrec := ih _ res h hfat hns.2 ?wf
            case wf =>
              intro hd
              dsimp only at hd
              rw [hstF] at hd
              simp only [Bool.false_or] at hd
              exact (hdone hd).1
            rw [hrec]
            dsimp only
            have htoks_eq : (fillPass cfg pb 0 [] rr.dlist).2.2 = new := by
              rw [hFP]
              simp
            rw [htoks_eq, hstF]
            simp only [Bool.false_or]
            rw [List.flatten_append]
            simp only [List.flatten_cons, List.flatten_nil, List.append_nil]
            rw [List.append_assoc]
            congr 1
            cases hdn : rr.done
            · simp only [Bool.false_eq_true, if_false]
              rw [hnd hdn, List.append_assoc, truncE_append_free cfg _ (hEfree hE0)]
            · obtain ⟨hp, htoks⟩ := hdone hdn
              rw [if_pos rfl]
              simp only [List.append_nil]
              rcases htoks with h4 | ⟨et, rest, hE', h4⟩
              · rw [h4]
                rw [truncE_of_free cfg (hEfree hE0)]
              · rw [h4]
                rw [truncE_stop cfg rest (hEfree hE0) hE']

/-- Invariant of the exec-chunk loop for the size claim: every executed
batch's byte tally (command words + tokens) stays strictly below `TT.s`,
whatever the child statuses. -/
theorem runLoop_cost (cfg : Cfg) (pfx : List (List Nat)) (pb : Int) (hpb : pb < cfg.s) :
    ∀ (fuel : Nat) (st : LoopSt) (res : RunResult),
      runLoop cfg pfx pb fuel st = some res →
      (∀ bt ∈ st.batches, pb + sumCost cfg bt < cfg.s) →
      ∀ bt ∈ res.batches, pb + sumCost cfg bt < cfg.s := by
  intro fuel
  induction fuel with
  | zero => intro st res h; cases h
  | succ fuel ih =>
    intro st res h hinv
    unfold runLoop at h
    by_cases hex : st.pending = none ∧ st.done = true
    · rw [if_pos hex] at h
      have hres := Option.some.inj h
      subst hres
      exact hinv
    · rw [if_neg hex] at h
      dsimp only at h
      generalize hrd : readLoop cfg pb 0 st.pending st.stdin = rr at h
      obtain ⟨new, bf, hFP, hbf, hent, hEfree, hle, hstrict, hdone, hnd, hnp⟩ :=
        readLoop_spec cfg pb 0 [] st.pending st.stdin rr hrd
      by_cases h1 : rr.entries = 0 ∧ rr.pending ≠ none
      · rw [if_pos h1] at h
        have hres := Option.some.inj h
        subst hres
        exact hinv
      · rw [if_neg h1] at h
        by_cases h2 : rr.entries = 0 ∧ rr.pending = none ∧ st.pid = true
        · rw [if_pos h2] at h
          have hres := Option.some.inj h
          subst hres
          exact hinv
        · rw [if_neg h2] at h
          by_cases h3 : rr.entries = 0 ∧ rr.pending = none ∧ st.pid = false ∧ cfg.flagR = true
          · rw [if_pos h3] at h
            exact ih _ res h hinv
          · rw [if_neg h3] at h
            have htoks_eq : (fillPass cfg pb 0 [] rr.dlist).2.2 = new := by
              rw [hFP]
              simp
            have hbatch : ∀ bt ∈ st.batches ++ [(fillPass cfg pb 0 [] rr.dlist).2.2],
                pb + sumCost cfg bt < cfg.s := by
              intro bt hbt
              rcases List.mem_append.mp hbt with hmem | hmem
              · exact hinv bt hmem
              · have hbt2 : bt = new := by
                  rw [htoks_eq] at hmem
                  simpa using hmem
                rw [hbt2]
                by_cases hne : new = []
                · rw [hne]
                  simpa [sumCost] using hpb
                · exact hstrict hne
            by_cases hstop2 : (classifyStatus (nextStatus st.childs).1 st.exitval).2.1 = true
            · rw [if_pos hstop2] at h
              have hres := Option.some.inj h
              subst hres
              exact hbatch
            · rw [if_neg hstop2] at h
              exact ih _ res h hbatch

/-- Invariant of the exec-chunk loop for the command-template claim: every
argument vector ever exec'd is the fixed command words followed by some
token batch. -/
theorem runLoop_shape (cfg : Cfg) (pfx : List (List Nat)) (pb : Int) :
    ∀ (fuel : Nat) (st : LoopSt) (res : RunResult),
      runLoop cfg pfx pb fuel st = some res →
      ∀ inv ∈ res.invocations, inv ∈ st.invocations ∨ ∃ t, inv = pfx ++ t := by
  intro fuel
  induction fuel with
  | zero => intro st res h; cases h
  | succ fuel ih =>
    intro st res h
    unfold runLoop at h
    by_cases hex : st.pending = none ∧ st.done = true
    · rw [if_pos hex] at h
      have hres := Option.some.inj h
      subst hres
      exact fun inv hi => Or.inl hi
    · rw [if_neg hex] at h
      dsimp only at h
      by_cases h1 : (readLoop cfg pb 0 st.pending st.stdin).entries = 0 ∧
          (readLoop cfg pb 0 st.pending st.stdin).pending ≠ none
      · rw [if_pos h1] at h
        have hres := Option.some.inj h
        subst hres
        exact fun inv hi => Or.inl hi
      · rw [if_neg h1] at h
        by_cases h2 : (readLoop cfg pb 0 st.pending st.stdin).entries = 0 ∧
            (readLoop cfg pb 0 st.pending st.stdin).pending = none ∧ st.pid = true
        · rw [if_pos h2] at h
          have hres := Option.some.inj h
          subst hres
          exact fun inv hi => Or.inl hi
        · rw [if_neg h2] at h
          by_cases h3 : (readLoop cfg pb 0 st.pending st.stdin).entries = 0 ∧
              (readLoop cfg pb 0 st.pending st.stdin).pending = none ∧
              st.pid = false ∧ cfg.flagR = true
          · rw [if_pos h3] at h
            have hres := ih _ res h
            intro inv hi
            exact hres inv hi
          · rw [if_neg h3] at h
            by_cases hstop2 : (classifyStatus (nextStatus st.childs).1 st.exitval).2.1 = true
            · rw [if_pos hstop2] at h
              have hres := Option.some.inj h
              subst hres
              intro inv hi
              rcases List.mem_append.mp hi with hmem | hmem
              · exact Or.inl hmem
              · exact Or.inr ⟨_, by simpa using hmem⟩
            · rw [if_neg hstop2] at h
              intro inv hi
              rcases ih _ res h inv hi with hmem | hex2
              · dsimp only at hmem
                rcases List.mem_append.mp hmem with hmem2 | hmem2
                · exact Or.inl hmem2
                · exact Or.inr ⟨_, by simpa using hmem2⟩
              · exact Or.inr hex2

/-- Overriding the size limit in the option structure does not change the
command-word tally (which only reads the `-s` presence flag). -/
theorem prefixBytes_set_s (cfg : Cfg) (x : Int) (pfx : List (List Nat)) :
    prefixBytes { cfg with s := x } pfx = prefixBytes cfg pfx := rfl

theorem sumCost_set_s (cfg : Cfg) (x : Int) (ts : List (List Nat)) :
    sumCost { cfg with s := x } ts = sumCost cfg ts := rfl

theorem truncE_set_s (cfg : Cfg) (x : Int) (ts : List (List Nat)) :
    truncE { cfg with s := x } ts = truncE cfg ts := rfl

theorem inputTokens_set_s (cfg : Cfg) (x : Int) (stdin : List (List Nat)) :
    inputTokens { cfg with s := x } stdin = inputTokens cfg stdin := rfl

theorem wsOvh_set_s (cfg : Cfg) (x : Int) :
    wsOvh { cfg with s := x } = wsOvh cfg := rfl

/-! ## Claims -/

/-- C1: For every input stream and every configuration, on any run of
`xargs_main` that terminates, each executed batch's total byte cost — the
command-word tally `prefixBytes` (each word's bytes plus separator plus,
without `-s`, the per-word pointer overhead, from the `bytes = -1` start)
plus the accumulated per-token costs `sumCost` (token bytes plus trailing
NUL plus, per mode, the bookkeeping overhead) — stays strictly below the
configured size limit `TT.s` (`computeLimit`), whatever the child statuses
do. -/
theorem C1_batch_size_bound (cfg : Cfg) (argMax envBytes : Int)
    (stdin : List (List Nat)) (childs : List Wstatus) (fuel : Nat) (res : RunResult)
    (h : xargs_main cfg argMax envBytes stdin childs fuel = some res) :
    ∀ bt ∈ res.batches,
      prefixBytes cfg (defaultCmd cfg.optargs) + sumCost cfg bt <
        computeLimit cfg.flagS cfg.s argMax envBytes := by
  unfold xargs_main at h
  dsimp only at h
  by_cases hpb : prefixBytes { cfg with s := computeLimit cfg.flagS cfg.s argMax envBytes }
      (defaultCmd cfg.optargs) ≥ computeLimit cfg.flagS cfg.s argMax envBytes
  · rw [if_pos hpb] at h
    have hres := Option.some.inj h
    subst hres
    intro bt hbt
    simp at hbt
  · rw [if_neg hpb] at h
    intro bt hbt
    have hlt : prefixBytes { cfg with s := computeLimit cfg.flagS cfg.s argMax envBytes }
        (defaultCmd cfg.optargs) <
        ({ cfg with s := computeLimit cfg.flagS cfg.s argMax envBytes } : Cfg).s := by
      simpa using not_le.mp hpb
    have hcost := runLoop_cost { cfg with s := computeLimit cfg.flagS cfg.s argMax envBytes }
      (defaultCmd cfg.optargs) _ hlt fuel _ res h (by intro bt2 hbt2; simp at hbt2) bt hbt
    rw [prefixBytes_set_s, sumCost_set_s] at hcost
    exact hcost

/-- Witness for C1 at a concrete run: `xargs -s 100 echo` on input `a\n`
runs one batch `[a]`, whose tally is below the limit. -/
theorem C1_witness :
    xargs_main exCfgWs 0 0 [[97, 10]] [] 10 =
      some ⟨[[[101, 99, 104, 111], [97]]], [[[97]]], 0, none⟩ ∧
    prefixBytes exCfgWs (defaultCmd exCfgWs.optargs) + sumCost exCfgWs [[97]] <
      computeLimit exCfgWs.flagS exCfgWs.s 0 0 := by
  constructor
  · rfl
  · exact C1_batch_size_bound exCfgWs 0 0 [[97, 10]] [] 10
      ⟨[[[101, 99, 104, 111], [97]]], [[[97]]], 0, none⟩ rfl [[97]] (by simp)

/-- C2: the child-status table of xargs.c lines 186-197: exit 0 leaves the
aggregate unchanged and the loop continues; exit 1..125 sets 123 and
continues; exit 126/127 becomes the final exit and stops; exit 255 sets
124, prints an error, and stops; death by signal sets 127 and continues.
The final conjunct is Scenario D at the run level: with `-n 1`, input
`a b\n` and the first child exiting 255, no second invocation happens even
though input remains, and the run exits 124. -/
theorem C2_exit_status_cases :
    (∀ ev, classifyStatus (.exited 0) ev = (ev, false, false)) ∧
    (∀ ev c, 1 ≤ c → c ≤ 125 → classifyStatus (.exited c) ev = (123, false, false)) ∧
    (∀ ev, classifyStatus (.exited 126) ev = (126, true, false)) ∧
    (∀ ev, classifyStatus (.exited 127) ev = (127, true, false)) ∧
    (∀ ev, classifyStatus (.exited 255) ev = (124, true, true)) ∧
    (∀ ev, classifyStatus .signaled ev = (127, false, false)) ∧
    (xargs_main exCfgN1 0 0 [[97, 32, 98, 10]] [.exited 255] 10).map
        (fun r => (r.invocations.length, r.exitCode, r.fatal)) = some (1, 124, none) := by
  refine ⟨fun ev => rfl, ?_, fun ev => rfl, fun ev => rfl, fun ev => rfl, fun ev => rfl, rfl⟩
  intro ev c h1 h2
  unfold classifyStatus
  dsimp only
  rw [if_neg (by omega), if_pos ⟨h1, h2⟩]

/-- Witness for C2's bounded-range conjunct at exit code 42. -/
theorem C2_witness :
    1 ≤ 42 ∧ 42 ≤ 125 ∧ classifyStatus (.exited 42) 7 = (123, false, false) :=
  ⟨by decide, by decide, C2_exit_status_cases.2.1 7 42 (by decide) (by decide)⟩

/-- C8: when `-s` is not given, the size limit is `ARG_MAX` minus the
environment's byte footprint minus the fixed 4096-byte headroom
(xargs.c line 106; note the comment above it quotes POSIX's 2048 but the
code reserves 4096). -/
theorem C8_default_limit (sFlag argMax envBytes : Int) :
    computeLimit false sFlag argMax envBytes = argMax - envBytes - 4096 := rfl

/-- C9: with no command arguments, the command template defaults to the
single word `echo` (xargs.c lines 111-115), and consequently every argument
vector a completed run executes is `echo` followed by that batch's
tokens. -/
theorem C9_default_echo :
    defaultCmd [] = [echoWord] ∧
    ∀ (cfg : Cfg) (argMax envBytes : Int) (stdin : List (List Nat))
      (childs : List Wstatus) (fuel : Nat) (res : RunResult),
      cfg.optargs = [] →
      xargs_main cfg argMax envBytes stdin childs fuel = some res →
      ∀ inv ∈ res.invocations, ∃ t, inv = echoWord :: t := by
  refine ⟨rfl, ?_⟩
  intro cfg argMax envBytes stdin childs fuel res hopt h inv hinv
  unfold xargs_main at h
  dsimp only at h
  split at h
  · have hres := Option.some.inj h
    subst hres
    simp at hinv
  · have hshape := runLoop_shape _ _ _ fuel _ res h inv hinv
    rcases hshape with hmem | ⟨t, ht⟩
    · simp at hmem
    · refine ⟨t, ?_⟩
      rw [ht, hopt]
      rfl

/-- Witness for C9: a run of `xargs` with no command words on empty input
executes exactly `echo`. -/
theorem C9_witness :
    exCfgEcho.optargs = [] ∧
    xargs_main exCfgEcho 0 0 [] [] 10 = some ⟨[[echoWord]], [[]], 0, none⟩ ∧
    ∃ t, [echoWord] = echoWord :: t :=
  ⟨rfl, rfl,
    C9_default_echo.2 exCfgEcho 0 0 [] [] 10 ⟨[[echoWord]], [[]], 0, none⟩ rfl rfl
      [echoWord] (by simp)⟩

/-- C6 fails on the code: the aggregate exit code is not updated
monotonically.  With `-n 1` and input `a b\n`, a first child killed by a
signal raises the aggregate to 127 (second run), but a second child exiting
1 then overwrites it with the lower-priority 123 (first run): the plain
assignment `toys.exitval = 123` at xargs.c line 191 ignores the current
value, as the first conjunct shows directly. -/
theorem C6_counterexample :
    classifyStatus (.exited 1) 127 = (123, false, false) ∧
    (xargs_main exCfgN1 0 0 [[97, 32, 98, 10]] [.signaled, .exited 1] 10).map
        (fun r => r.exitCode) = some 123 ∧
    (xargs_main exCfgN1 0 0 [[97, 32, 98, 10]] [.signaled] 10).map
        (fun r => r.exitCode) = some 127 ∧
    123 < 127 := by
  exact ⟨rfl, rfl, rfl, by decide⟩

/-- C6 amended: the aggregate starts at 0 and each child outcome updates it
by plain assignment — to 123 for exits 1..125, 124 for 255, the exact code
for 126/127, 127 for a signal, unchanged for exit 0 and for exits 128..254.
Once nonzero it never returns to 0, but it is not monotone: a child exiting
1..125 after a signal-killed child overwrites the 127 with 123. -/
theorem C6_amended (st : Wstatus) (ev : Nat) :
    ((classifyStatus st ev).1 = ev ∨
      (classifyStatus st ev).1 ∈ ([123, 124, 126, 127] : List Nat)) ∧
    (ev ≠ 0 → (classifyStatus st ev).1 ≠ 0) := by
  cases st with
  | signaled => exact ⟨Or.inr (by simp [classifyStatus]), fun _ => by simp [classifyStatus]⟩
  | exited c =>
    unfold classifyStatus
    dsimp only
    split_ifs with h1 h2 h3
    · rcases h1 with rfl | rfl
      · exact ⟨Or.inr (by decide), fun _ => by decide⟩
      · exact ⟨Or.inr (by decide), fun _ => by decide⟩
    · exact ⟨Or.inr (by decide), fun _ => by decide⟩
    · exact ⟨Or.inr (by decide), fun _ => by decide⟩
    · exact ⟨Or.inl rfl, fun h => h⟩

/-- Witness for C6's amended claim at a child exiting 1 with aggregate 5. -/
theorem C6_witness :
    (5 : Nat) ≠ 0 ∧ (classifyStatus (.exited 1) 5).1 ≠ 0 ∧
    ((classifyStatus (.exited 1) 5).1 = 5 ∨
      (classifyStatus (.exited 1) 5).1 ∈ ([123, 124, 126, 127] : List Nat)) :=
  ⟨by decide, (C6_amended (.exited 1) 5).2 (by decide), (C6_amended (.exited 1) 5).1⟩

/-- C7 fails on the code: in null-delimited (`-0`) mode the pointer-sized
per-entry overhead `sizeof(char *)` is added unconditionally (xargs.c line
83), even when an explicit `-s` limit is configured.  Here `-0 -s 100` with
token `a` (1 byte) accepted from tally 0 yields tally
`ptrSize + 1 + 1 = 10`, not the token's own bytes alone. -/
theorem C7_counterexample :
    exCfgNul.flagS = true ∧ exCfgNul.flag0 = true ∧
    nulCount exCfgNul 0 0 [97] = ⟨10, 1, .needMore⟩ ∧
    (10 : Int) = (ptrSize : Int) + 1 + 1 := by
  exact ⟨rfl, rfl, rfl, by decide⟩

/-- C7 amended: in whitespace mode an accepted token costs its bytes plus a
trailing byte plus — exactly when `-s` was not given — the
`sizeof(void *)+1` overhead; in `-0` mode an accepted token always costs
its bytes plus a trailing byte plus the `sizeof(char *)` overhead,
regardless of `-s`. -/
theorem C7_amended :
    (∀ (cfg : Cfg) (b : Int) (e : Nat) (d : List Nat) (acc : List (List Nat)),
      b + (ptrSize : Int) + d.length + 1 < cfg.s →
      (cfg.n = 0 ∨ e < cfg.n) →
      nulFill cfg b e d acc =
        ⟨b + (ptrSize : Int) + d.length + 1, e + 1, acc ++ [d], .needMore⟩) ∧
    (∀ (cfg : Cfg) (b : Int) (e : Nat) (t : List Nat) (acc : List (List Nat)),
      t ≠ [] →
      (∀ c ∈ t, notSpace c = true) →
      cfg.E ≠ some t →
      (cfg.n = 0 ∨ e < cfg.n) →
      b + (if cfg.flagS then 0 else (ptrSize : Int) + 1) + t.length + 1 < cfg.s →
      wsFill cfg b e t acc =
        ⟨b + (if cfg.flagS then 0 else (ptrSize : Int) + 1) + t.length + 1,
         e + 1, acc ++ [t], .needMore⟩) := by
  constructor
  · intro cfg b e d acc hs hn
    unfold nulFill
    dsimp only
    rw [if_neg ?hcond]
    case hcond =>
      rintro (hge | ⟨hn0, hle⟩)
      · omega
      · rcases hn with h0 | hlt
        · exact hn0 h0
        · omega
  · intro cfg b e t acc hne hall hE hn hs
    obtain ⟨c, cs, rfl⟩ : ∃ c cs, t = c :: cs := by
      cases t with
      | nil => exact absurd rfl hne
      | cons c cs => exact ⟨c, cs, rfl⟩
    have hovh : (if cfg.flagS then 0 else (ptrSize : Int) + 1) = wsOvh cfg := rfl
    have hcns : notSpace c = true := hall c (by simp)
    have hcsp : isspace c = false := by simpa [notSpace] using hcns
    have htake : (c :: cs).takeWhile notSpace = c :: cs :=
      List.takeWhile_eq_self_iff.mpr hall
    have hdropn : (c :: cs).dropWhile notSpace = [] :=
      List.dropWhile_eq_nil_iff.mpr hall
    have hdrops : (c :: cs).dropWhile isspace = c :: cs :=
      List.dropWhile_cons_of_neg (by simp [hcsp])
    unfold wsFill wsFillGo
    dsimp only
    rw [if_neg ?hncond]
    case hncond =>
      rintro ⟨hn0, hle⟩
      rcases hn with h0 | hlt
      · exact hn0 h0
      · omega
    rw [hdrops]
    dsimp only
    have hbl : byteLoop cfg (b + wsOvh cfg) (c :: cs) =
        (b + wsOvh cfg + ((c :: cs).length : Int) + 1, some []) := by
      have := byteLoop_ok cfg (c :: cs) (b + wsOvh cfg) ?bnd
      case bnd =>
        rw [htake]
        rw [hovh] at hs
        omega
      rw [htake, hdropn] at this
      exact this
    rw [hbl]
    dsimp only
    rw [if_neg (by rw [htake]; exact hE)]
    rw [htake]
    simp only [List.tail_nil]
    rw [wsFillGo_nil]
    rw [hovh]

/-- Witness for C7's amended claim: a `-0 -s` token of 1 byte costs
`ptrSize + 2`, and a whitespace-mode `-s` token of 1 byte costs 2. -/
theorem C7_witness :
    nulFill exCfgNul 0 0 [97] [] = ⟨(ptrSize : Int) + 1 + 1, 1, [[97]], .needMore⟩ ∧
    wsFill exCfgWs 4 0 [97] [] = ⟨4 + 0 + 1 + 1, 1, [[97]], .needMore⟩ := by
  constructor
  · have h := C7_amended.1 exCfgNul 0 0 [97] [] (by decide) (Or.inl rfl)
    simpa using h
  · have h := C7_amended.2 exCfgWs 4 0 [97] [] (by decide) (by decide)
      (by decide) (Or.inl rfl) (by decide)
    simpa using h

/-- C10: the two passes of `handle_entries` agree.  For any batch, running
the counting pass (the read loop) and then replaying the buffered lines
with the filling pass from the same initial tally yields the same final
`TT.bytes`, the same final `TT.entries`, and exactly `TT.entries` stored
tokens — so the vector `xzalloc`'d with `entries+TT.entries+1` slots
(xargs.c line 158) is filled in exactly its first `entries+TT.entries`
slots, leaving the zeroed final slot as the NULL end marker. -/
theorem C10_two_pass_agreement (cfg : Cfg) (pb : Int) (pending : Option (List Nat))
    (stdin : List (List Nat)) :
    (fillPass cfg pb 0 [] (readLoop cfg pb 0 pending stdin).dlist).1 =
      (readLoop cfg pb 0 pending stdin).bytes ∧
    (fillPass cfg pb 0 [] (readLoop cfg pb 0 pending stdin).dlist).2.1 =
      (readLoop cfg pb 0 pending stdin).entries ∧
    (fillPass cfg pb 0 [] (readLoop cfg pb 0 pending stdin).dlist).2.2.length =
      (readLoop cfg pb 0 pending stdin).entries := by
  obtain ⟨new, bf, hFP, hbf, hent, hEfree, hle, hstrict, hdone, hnd, hnp⟩ :=
    readLoop_spec cfg pb 0 [] pending stdin (readLoop cfg pb 0 pending stdin) rfl
  rw [hFP]
  refine ⟨hbf, rfl, ?_⟩
  simp only [List.nil_append]
  omega

/-- C3: token conservation.  On any run that terminates normally (no fatal
error and no run-stopping child status), the concatenation of the token
sequences of all executed batches, in execution order, is exactly the
tokenized input truncated at (and excluding) the first stop-string token —
the whole tokenized input when `-E` is absent or never matched.  A token
rejected from a full batch is re-fed unconsumed into the next batch, which
is what makes the concatenation seamless.  The hypothesis `-0 → no -E`
mirrors the option-parsing exclusion `[!0E]` (xargs.c line 13). -/
theorem C3_token_conservation (cfg : Cfg) (argMax envBytes : Int)
    (stdin : List (List Nat)) (childs : List Wstatus) (fuel : Nat) (res : RunResult)
    (hE0 : cfg.flag0 = true → cfg.E = none)
    (h : xargs_main cfg argMax envBytes stdin childs fuel = some res)
    (hfat : res.fatal = none)
    (hstop : ∀ c ∈ childs, stopsRun c = false) :
    res.batches.flatten = truncE cfg (inputTokens cfg stdin) := by
  unfold xargs_main at h
  dsimp only at h
  split at h
  · have hres := Option.some.inj h
    subst hres
    simp at hfat
  · have hconcat := runLoop_concat
      { cfg with s := computeLimit cfg.flagS cfg.s argMax envBytes }
      (defaultCmd cfg.optargs) _ hE0 fuel _ res h hfat hstop (by intro hd; cases hd)
    rw [hconcat]
    simp only [List.flatten_nil, List.nil_append]
    rw [if_neg (by simp)]
    rw [truncE_set_s, inputTokens_set_s]
    show truncE cfg (pendTokens cfg none ++ inputTokens cfg stdin) = _
    rw [pendTokens]
    simp

/-- Witness for C3 at a concrete run: `xargs -s 100 echo` on `a b\n` with a
child exiting 0 executes one batch `[a, b]`, the whole tokenized input. -/
theorem C3_witness :
    xargs_main exCfgWs 0 0 [[97, 32, 98, 10]] [] 10 =
      some ⟨[[[101, 99, 104, 111], [97], [98]]], [[[97], [98]]], 0, none⟩ ∧
    ([[[97], [98]]] : List (List (List Nat))).flatten =
      truncE exCfgWs (inputTokens exCfgWs [[97, 32, 98, 10]]) := by
  refine ⟨rfl, ?_⟩
  exact C3_token_conservation exCfgWs 0 0 [[97, 32, 98, 10]] [] 10
    ⟨[[[101, 99, 104, 111], [97], [98]]], [[[97], [98]]], 0, none⟩
    (by intro h; cases h) rfl rfl (by intro c hc; simp at hc)

/-- C4 fails on the code as universally stated: an oversized token does not
always mean zero invocations for the whole run.  With `-s 15` and command
word `e`, input `a bbbbbbbbbbbbb\n` contains a token (13 `b`s) whose lone
cost meets the limit (second conjunct), the run does die with the fatal
`argument too long`, but only after the first batch `[a]` has already been
executed once (first conjunct: one invocation, not zero). -/
theorem C4_counterexample :
    (xargs_main exCfgTiny 0 0 [[97, 32] ++ List.replicate 13 98 ++ [10]] [] 10).map
        (fun r => (r.invocations.length, r.fatal)) =
      some (1, some "argument too long") ∧
    prefixBytes exCfgTiny (defaultCmd exCfgTiny.optargs) +
        wsCost exCfgTiny (List.replicate 13 98) ≥ exCfgTiny.s := by
  exact ⟨rfl, by decide⟩

/-- C4 amended: (i) if the command words alone already reach the size
limit, the run aborts fatally (`command too long`) before any invocation;
(ii) if the *first* token of the input meets or exceeds the limit on its
own (command tally plus lone-token cost), the run aborts fatally with
`argument too long` and zero invocations.  When the oversized token is not
the first of its batch, the batches before it still run (see the
counterexample): the fatal fires as soon as the token would start a batch
of its own, so no invocation ever contains it. -/
theorem C4_amended_too_long :
    (∀ (cfg : Cfg) (argMax envBytes : Int) (stdin : List (List Nat))
       (childs : List Wstatus) (fuel : Nat),
      prefixBytes cfg (defaultCmd cfg.optargs) ≥ computeLimit cfg.flagS cfg.s argMax envBytes →
      xargs_main cfg argMax envBytes stdin childs fuel =
        some ⟨[], [], 1, some "command too long"⟩) ∧
    (∀ (cfg : Cfg) (argMax envBytes : Int) (l : List Nat) (rest : List (List Nat))
       (childs : List Wstatus) (fuel : Nat) (c1 : Nat) (cs1 : List Nat),
      cfg.flag0 = false →
      prefixBytes cfg (defaultCmd cfg.optargs) < computeLimit cfg.flagS cfg.s argMax envBytes →
      l.dropWhile isspace = c1 :: cs1 →
      prefixBytes cfg (defaultCmd cfg.optargs) +
          wsCost cfg ((c1 :: cs1).takeWhile notSpace) ≥
        computeLimit cfg.flagS cfg.s argMax envBytes →
      xargs_main cfg argMax envBytes (l :: rest) childs (fuel + 1) =
        some ⟨[], [], 1, some "argument too long"⟩) := by
  constructor
  · intro cfg argMax envBytes stdin childs fuel hpb
    unfold xargs_main
    dsimp only
    rw [prefixBytes_set_s]
    rw [if_pos hpb]
  · intro cfg argMax envBytes l rest childs fuel c1 cs1 h0 hpb hdrop hbig
    unfold xargs_main
    dsimp only
    rw [prefixBytes_set_s]
    rw [if_neg (by omega)]
    unfold runLoop
    rw [if_neg (by simp)]
    dsimp only
    have hcount : handleCount { cfg with s := computeLimit cfg.flagS cfg.s argMax envBytes }
        (prefixBytes cfg (defaultCmd cfg.optargs)) 0 l =
        ⟨(byteLoop { cfg with s := computeLimit cfg.flagS cfg.s argMax envBytes }
            (prefixBytes cfg (defaultCmd cfg.optargs) + wsOvh cfg) (c1 :: cs1)).1, 0,
          .leftover (c1 :: cs1)⟩ := by
      unfold handleCount
      rw [if_neg (by simp [h0])]
      cases l with
      | nil => simp [List.dropWhile] at hdrop
      | cons c0 cs0 =>
        unfold wsCount wsCountGo
        dsimp only
        rw [if_neg (by rintro ⟨hn0, hle⟩; omega)]
        rw [hdrop]
        dsimp only
        rw [wsOvh_set_s]
        have hnone : (byteLoop { cfg with s := computeLimit cfg.flagS cfg.s argMax envBytes }
            (prefixBytes cfg (defaultCmd cfg.optargs) + wsOvh cfg) (c1 :: cs1)).2 = none := by
          apply byteLoop_none
          have hcost : wsCost cfg ((c1 :: cs1).takeWhile notSpace) =
              wsOvh cfg + (((c1 :: cs1).takeWhile notSpace).length : Int) + 1 := rfl
          rw [hcost] at hbig
          show prefixBytes cfg (defaultCmd cfg.optargs) + wsOvh cfg +
              (((c1 :: cs1).takeWhile notSpace).length : Int) + 1 ≥
            computeLimit cfg.flagS cfg.s argMax envBytes
          omega
        cases hbl : byteLoop { cfg with s := computeLimit cfg.flagS cfg.s argMax envBytes }
            (prefixBytes cfg (defaultCmd cfg.optargs) + wsOvh cfg) (c1 :: cs1) with
        | mk b2 ob =>
          rw [hbl] at hnone
          simp only at hnone
          subst hnone
          rfl
    have hread : readLoop { cfg with s := computeLimit cfg.flagS cfg.s argMax envBytes }
        (prefixBytes cfg (defaultCmd cfg.optargs)) 0 none (l :: rest) =
        ⟨[l], (byteLoop { cfg with s := computeLimit cfg.flagS cfg.s argMax envBytes }
            (prefixBytes cfg (defaultCmd cfg.optargs) + wsOvh cfg) (c1 :: cs1)).1, 0,
          some (c1 :: cs1), rest, false⟩ := by
      unfold readLoop readLines
      rw [hcount]
    rw [hread]
    rw [if_pos (by simp)]

/-- Witness for C4's amended claim: an `echo` prefix against `-s 3` dies
with `command too long` before any invocation, and a lone 13-byte first
token against `-s 15` (command word `e`) dies with `argument too long` and
zero invocations. -/
theorem C4_witness :
    prefixBytes (⟨true, false, false, 3, 0, none, [[101, 99, 104, 111]]⟩ : Cfg)
        (defaultCmd [[101, 99, 104, 111]]) ≥ 3 ∧
    xargs_main (⟨true, false, false, 3, 0, none, [[101, 99, 104, 111]]⟩ : Cfg) 0 0
        [[97, 10]] [] 7 = some ⟨[], [], 1, some "command too long"⟩ ∧
    prefixBytes exCfgTiny (defaultCmd exCfgTiny.optargs) +
        wsCost exCfgTiny ((98 :: (List.replicate 12 98 ++ [10])).takeWhile notSpace) ≥
      computeLimit exCfgTiny.flagS exCfgTiny.s 0 0 ∧
    xargs_main exCfgTiny 0 0 [List.replicate 13 98 ++ [10]] [] 7 =
      some ⟨[], [], 1, some "argument too long"⟩ := by
  refine ⟨by decide, ?_, by decide, ?_⟩
  · exact C4_amended_too_long.1 _ 0 0 [[97, 10]] [] 7 (by decide)
  · exact C4_amended_too_long.2 exCfgTiny 0 0 (List.replicate 13 98 ++ [10]) [] [] 6
      98 (List.replicate 12 98 ++ [10]) rfl (by decide) (by decide) (by decide)

/-- C5: on empty input (no tokens before end of stream) and a command
prefix that fits the limit, the run performs exactly one invocation — the
bare command words with no appended tokens — in default mode, and exactly
zero invocations when `-r` (skip-if-empty) is given, whatever the child
statuses. -/
theorem C5_empty_input (cfg : Cfg) (argMax envBytes : Int) (childs : List Wstatus)
    (fuel : Nat)
    (hpb : prefixBytes cfg (defaultCmd cfg.optargs) <
      computeLimit cfg.flagS cfg.s argMax envBytes) :
    (cfg.flagR = false →
      (xargs_main cfg argMax envBytes [] childs (fuel + 2)).map (fun r => r.invocations) =
        some [defaultCmd cfg.optargs]) ∧
    (cfg.flagR = true →
      (xargs_main cfg argMax envBytes [] childs (fuel + 2)).map (fun r => r.invocations) =
        some []) := by
  have hmain : xargs_main cfg argMax envBytes [] childs (fuel + 2) =
      runLoop { cfg with s := computeLimit cfg.flagS cfg.s argMax envBytes }
        (defaultCmd cfg.optargs)
        (prefixBytes cfg (defaultCmd cfg.optargs)) (fuel + 2)
        ⟨none, [], childs, false, false, 0, [], []⟩ := by
    unfold xargs_main
    dsimp only
    rw [prefixBytes_set_s]
    rw [if_neg (by omega)]
  rw [hmain]
  unfold runLoop
  rw [if_neg (by simp)]
  dsimp only
  have hread : readLoop { cfg with s := computeLimit cfg.flagS cfg.s argMax envBytes }
      (prefixBytes cfg (defaultCmd cfg.optargs)) 0 none [] =
      ⟨[], prefixBytes cfg (defaultCmd cfg.optargs), 0, none, [], true⟩ := rfl
  rw [hread]
  rw [if_neg (by simp), if_neg (by simp)]
  constructor
  · intro hR
    rw [if_neg (by simp [hR])]
    dsimp only
    by_cases hstop2 : (classifyStatus (nextStatus childs).1 0).2.1 = true
    · rw [if_pos hstop2]
      simp [fillPass]
    · rw [if_neg hstop2]
      unfold runLoop
      rw [if_pos (by simp)]
      simp [fillPass]
  · intro hR
    rw [if_pos (by simp [hR])]
    unfold runLoop
    rw [if_pos (by simp)]
    simp

/-- Witness for C5 in both modes: `xargs -s 1000 echo` on empty input runs
`echo` once; `xargs -s 1000 -r echo` runs nothing. -/
theorem C5_witness :
    prefixBytes exCfgWs (defaultCmd exCfgWs.optargs) <
      computeLimit exCfgWs.flagS exCfgWs.s 0 0 ∧
    (xargs_main exCfgWs 0 0 [] [] 10).map (fun r => r.invocations) =
      some [defaultCmd exCfgWs.optargs] ∧
    prefixBytes exCfgR (defaultCmd exCfgR.optargs) <
      computeLimit exCfgR.flagS exCfgR.s 0 0 ∧
    (xargs_main exCfgR 0 0 [] [] 10).map (fun r => r.invocations) = some [] := by
  refine ⟨by decide, ?_, by decide, ?_⟩
  · exact (C5_empty_input exCfgWs 0 0 [] 8 (by decide)).1 rfl
  · exact (C5_empty_input exCfgR 0 0 [] 8 (by decide)).2 rfl

end Xargs
